import Mathlib

/-!
Verification of the ConGPT conversation-tree store (backend `server.js`).

The store keeps a forest of conversation nodes in a mutable mapping from
node id to node, plus an ordered list of root ids.  We embed the mapping
as an association list `List (Nat × Node)` (JavaScript object keyed by
the node's id); ids, which are UUID strings in the source, are abstracted
as natural numbers, and `null`/`undefined` string fields become `Option`.
All operations are translated line by line from the source:
`createNode`, `getNodePath`, `getRootId`, `pruneToRoot`, `deleteSubtree`,
`serializeState` and the `POST /messages` handler.
-/

/-- A single conversation message, mirroring the object literal built by
`createNode` in the source: id, role, content, optional parent id,
ordered list of child ids, creation timestamp, cached root id. -/
structure Node where
  id : Nat
  role : String
  content : String
  parentId : Option Nat
  children : List Nat
  createdAt : String
  rootId : Option Nat
deriving DecidableEq, Repr

/-- The JavaScript object `conversationState.nodes`, as an association list
keyed by node id. -/
abbrev NodeMap := List (Nat × Node)

/-- The store state `conversationState`: the node mapping and the ordered
root-id sequence. -/
structure ConvState where
  nodes : NodeMap
  rootIds : List Nat
deriving DecidableEq, Repr

/-- Key lookup in the node mapping (`conversationState.nodes[id]`);
`none` plays the role of `undefined`. -/
def lookupNode : NodeMap → Nat → Option Node
  | [], _ => none
  | (k, n) :: rest, i => if k = i then some n else lookupNode rest i

/-- Key-update `nodes[id] = node`: replace an existing binding in place,
otherwise append a new one (JavaScript object insertion order). -/
def setNode (nodes : NodeMap) (i : Nat) (n : Node) : NodeMap :=
  if (lookupNode nodes i).isSome then
    nodes.map (fun p => if p.1 = i then (p.1, n) else p)
  else
    nodes ++ [(i, n)]

/-- The in-place mutation `parent.children.push(id)` on the node stored at
key `pid`; a missing key leaves the mapping unchanged. -/
def pushChild (nodes : NodeMap) (pid cid : Nat) : NodeMap :=
  nodes.map (fun p =>
    if p.1 = pid then (p.1, { p.2 with children := p.2.children ++ [cid] }) else p)

/-- The statement `delete conversationState.nodes[id]`. -/
def removeKey (nodes : NodeMap) (i : Nat) : NodeMap :=
  nodes.filter (fun p => p.1 ≠ i)

/-- `createNode({ role, content, parentId })` from the source.  The fresh
UUID and the timestamp are passed in as parameters `i` and `ts`.  Computes
the cached root id (copied from an existing parent, with the
`parent.rootId || parent.id` fallback, else the node's own id), stores the
node, then either pushes the id onto the parent's `children` or appends it
to `rootIds`.  Returns the updated state and the stored node. -/
def createNode (st : ConvState) (role content : String) (parentId : Option Nat)
    (i : Nat) (ts : String) : ConvState × Node :=
  let rootVal : Nat :=
    match parentId with
    | some pid =>
      match lookupNode st.nodes pid with
      | some parent => parent.rootId.getD parent.id
      | none => i
    | none => i
  let node : Node :=
    { id := i, role := role, content := content, parentId := parentId,
      children := [], createdAt := ts, rootId := some rootVal }
  let nodes1 := setNode st.nodes i node
  match parentId with
  | some pid =>
    (match lookupNode nodes1 pid with
     | some _ =>
       let nodes2 := pushChild nodes1 pid i
       ({ nodes := nodes2, rootIds := st.rootIds },
         (lookupNode nodes2 i).getD node)
     | none =>
       ({ nodes := nodes1, rootIds := st.rootIds },
         (lookupNode nodes1 i).getD node))
  | none =>
      ({ nodes := nodes1, rootIds := st.rootIds ++ [i] },
        (lookupNode nodes1 i).getD node)

/-- The ascent loop of `getNodePath`: follow `parentId` links, pushing each
visited node, stopping at a missing parent link (`null`) or a dangling
reference.  The loop in the source has no bound; the `fuel` argument is a
bound on the number of iterations, and `getNodePath` supplies one that is
never exhausted on forests whose parent chains terminate. -/
def getNodePathAux (nodes : NodeMap) : Nat → Option Nat → List Node → List Node
  | 0, _, path => path
  | _ + 1, none, path => path
  | fuel + 1, some currentId, path =>
    match lookupNode nodes currentId with
    | none => path
    | some node => getNodePathAux nodes fuel node.parentId (path ++ [node])

/-- `getNodePath(nodeId)`: collect the ancestor chain bottom-up, then
reverse it into root-to-node order. -/
def getNodePath (st : ConvState) (nodeId : Nat) : List Node :=
  (getNodePathAux st.nodes (st.nodes.length + 1) (some nodeId) []).reverse

/-- Decidable check that the parent ascent starting at a given link
terminates (reaches `null` or a dangling reference) within `fuel` steps.
This expresses, for one start point, that the source's unbounded `while`
loop in `getNodePath` terminates. -/
def ascendsFuel (nodes : NodeMap) : Nat → Option Nat → Bool
  | _, none => true
  | 0, some _ => false
  | fuel + 1, some k =>
    match lookupNode nodes k with
    | none => true
    | some node => ascendsFuel nodes fuel node.parentId

/-- `getRootId(nodeId)`: the node's cached root id (`node.rootId || node.id`),
or the input id unchanged when the node is missing. -/
def getRootId (st : ConvState) (nodeId : Nat) : Nat :=
  match lookupNode st.nodes nodeId with
  | none => nodeId
  | some node => node.rootId.getD node.id

/-- Number of keys of the mapping not yet retained; the primary termination
measure of the breadth-first walk in `pruneToRoot`. -/
def keysNotRetained (nodes : NodeMap) (retained : List Nat) : Nat :=
  ((nodes.map Prod.fst).filter (fun k => k ∉ retained)).length

/-- The breadth-first reachability walk inside `pruneToRoot`: `retained`
is the visit-ordered contents of the JavaScript `Set` `retainedIds`,
`queue` the pending queue.  A popped id already retained or missing from
the mapping is skipped; otherwise it is retained and its not-yet-retained
children are pushed. -/
def bfsLoop (nodes : NodeMap) : List Nat → List Nat → List Nat
  | retained, [] => retained
  | retained, currentId :: rest =>
    if currentId ∈ retained then bfsLoop nodes retained rest
    else
      match h : lookupNode nodes currentId with
      | none => bfsLoop nodes retained rest
      | some node =>
        bfsLoop nodes (retained ++ [currentId])
          (rest ++ node.children.filter (fun c => c ∉ retained ++ [currentId]))
termination_by retained queue => (keysNotRetained nodes retained, queue.length)
decreasing_by
  · exact Prod.Lex.right _ (Nat.lt_succ_self _)
  · exact Prod.Lex.right _ (Nat.lt_succ_self _)
  · refine Prod.Lex.left _ _ ?_
    have hkey : ∀ (l : NodeMap), lookupNode l currentId = some node →
        currentId ∈ l.map Prod.fst := by
      intro l
      induction l with
      | nil => intro hl; simp [lookupNode] at hl
      | cons p t ih =>
        intro hl
        simp only [lookupNode] at hl
        by_cases hp : p.1 = currentId
        · simp [hp]
        · rw [if_neg hp] at hl
          simp [ih hl]
    have ha : currentId ∈ (nodes.map Prod.fst) := hkey nodes h
    have har : currentId ∉ retained := by assumption
    show ((nodes.map Prod.fst).filter (fun k => k ∉ retained ++ [currentId])).length <
      ((nodes.map Prod.fst).filter (fun k => k ∉ retained)).length
    obtain ⟨s, t, hst⟩ := List.append_of_mem ha
    rw [hst]
    have hmono : ∀ (u : List Nat),
        (u.filter (fun k => k ∉ retained ++ [currentId])).length ≤
          (u.filter (fun k => k ∉ retained)).length := by
      intro u
      simp only [← List.countP_eq_length_filter]
      apply List.countP_mono_left
      intro x _ hx
      simp only [decide_eq_true_eq] at hx ⊢
      intro hmem
      exact hx (by simp [hmem])
    have h1 : (decide (currentId ∉ retained ++ [currentId])) = false := by simp
    have h2 : (decide (currentId ∉ retained)) = true := by simpa using har
    have hs := hmono s
    have ht := hmono t
    simp only [List.filter_append, List.filter_cons, h1, h2, Bool.false_eq_true,
      if_false, if_true, List.length_append, List.length_cons]
    omega

/-- `pruneToRoot(rootId)`: a no-op when the id is dangling; otherwise keep
exactly the ids retained by the breadth-first walk, filter every kept
node's `children` down to retained ids, and reset `rootIds` to the
singleton `[rootId]`. -/
def pruneToRoot (st : ConvState) (rootId : Nat) : ConvState :=
  match lookupNode st.nodes rootId with
  | none => st
  | some _ =>
    let retainedIds := bfsLoop st.nodes [] [rootId]
    let nextNodes : NodeMap := retainedIds.filterMap (fun i =>
      (lookupNode st.nodes i).map (fun node =>
        (i, { node with children := node.children.filter (fun c => c ∈ retainedIds) })))
    { nodes := nextNodes, rootIds := [rootId] }

/-- The deletion loop of `deleteSubtree`, with the stack `toDelete` stored
top-first (the source pushes and pops at the array's end, so a visited
node's children are pushed in order and processed last-pushed-first).
A popped id missing from the mapping is skipped; otherwise its children
are pushed and the node is deleted. -/
def delLoop : NodeMap → List Nat → NodeMap
  | nodes, [] => nodes
  | nodes, currentId :: rest =>
    match h : lookupNode nodes currentId with
    | none => delLoop nodes rest
    | some node => delLoop (removeKey nodes currentId) (node.children.reverse ++ rest)
termination_by nodes stack => (nodes.length, stack.length)
decreasing_by
  · exact Prod.Lex.right _ (Nat.lt_succ_self _)
  · refine Prod.Lex.left _ _ ?_
    have hkey : ∀ (l : NodeMap), lookupNode l currentId = some node →
        currentId ∈ l.map Prod.fst := by
      intro l
      induction l with
      | nil => intro hl; simp [lookupNode] at hl
      | cons p t ih =>
        intro hl
        simp only [lookupNode] at hl
        by_cases hp : p.1 = currentId
        · simp [hp]
        · rw [if_neg hp] at hl
          simp [ih hl]
    have hmem : currentId ∈ nodes.map Prod.fst := hkey nodes h
    rcases List.mem_map.mp hmem with ⟨p, hp, hpk⟩
    simp only [removeKey]
    apply List.length_filter_lt_length_iff_exists.mpr
    exact ⟨p, hp, by simp [hpk]⟩

/-- `deleteSubtree(nodeId)`: run the deletion loop from the singleton
stack; `rootIds` is never touched. -/
def deleteSubtree (st : ConvState) (nodeId : Nat) : ConvState :=
  { st with nodes := delLoop st.nodes [nodeId] }

/-- `serializeState()`: the snapshot exposes `rootIds` and the node
mapping unchanged. -/
def serializeState (st : ConvState) : ConvState := st

/-- The fixed fallback text substituted when the completion returns no
usable content (`completion.choices?.[0]?.message?.content || ...`). -/
def fallbackMessage : String := "I\x27m sorry, I was unable to generate a response."

/-- The extraction with fallback
`completion.choices?.[0]?.message?.content || fallbackMessage`: `none`
models a missing text, and the empty string is falsy in the source. -/
def extractContent (extracted : Option String) : String :=
  match extracted with
  | none => fallbackMessage
  | some t => if t = "" then fallbackMessage else t

/-- Outcome of the `POST /messages` handler: the 400, 404 and 500 JSON
error responses, or the success response carrying the user node, the
assistant node and the serialized state.  Each outcome also records the
store state left behind by the handler. -/
inductive PostResult where
  | badRequest (st : ConvState)
  | notFound (st : ConvState)
  | serverError (st : ConvState)
  | ok (userNode assistantNode : Node) (st : ConvState)
deriving DecidableEq, Repr

/-- The store state left behind by a handler outcome. -/
def PostResult.state : PostResult → ConvState
  | .badRequest st => st
  | .notFound st => st
  | .serverError st => st
  | .ok _ _ st => st

/-- The part of the `POST /messages` handler after request validation:
create the user node, await the completion (an input here: `.error` for a
thrown provider call, `.ok` carrying the extracted text, `none` when no
usable text came back), then either fall into the catch-all 500 response
with the user node already inserted, or create the assistant node with
the fallback-defaulted content, prune to the user node's root and answer
with both nodes.  The fresh UUIDs and timestamps are parameters. -/
def postMessageCore (st : ConvState) (c : String) (parentId : Option Nat)
    (userId assistantId : Nat) (uTs aTs : String)
    (completion : Except String (Option String)) : PostResult :=
  let ucre := createNode st "user" c parentId userId uTs
  let st1 := ucre.1
  let userNode := ucre.2
  match completion with
  | .error _ => .serverError st1
  | .ok extracted =>
    let assistantContent := extractContent extracted
    let acre := createNode st1 "assistant" assistantContent (some userNode.id) assistantId aTs
    let st2 := acre.1
    let assistantNode := acre.2
    let activeRootId := getRootId st2 userNode.id
    let st3 := pruneToRoot st2 activeRootId
    .ok userNode assistantNode st3

/-- The full `POST /messages` handler: reject a missing or empty content
string with 400, a dangling parent id with 404, a non-assistant parent
with 400, then run the exchange. -/
def postMessage (st : ConvState) (content : Option String) (parentId : Option Nat)
    (userId assistantId : Nat) (uTs aTs : String)
    (completion : Except String (Option String)) : PostResult :=
  match content with
  | none => .badRequest st
  | some c =>
    if c = "" then .badRequest st
    else
      match parentId with
      | some pid =>
        (match lookupNode st.nodes pid with
         | none => .notFound st
         | some parentNode =>
           if parentNode.role ≠ "assistant" then .badRequest st
           else postMessageCore st c parentId userId assistantId uTs aTs completion)
      | none => postMessageCore st c parentId userId assistantId uTs aTs completion

/-- Reachability from `x` to `y` following `children` links through nodes
present in the mapping; every node on the chain, endpoints included, must
exist.  This is the set the breadth-first walk of `pruneToRoot` and the
deletion loop of `deleteSubtree` traverse. -/
inductive Reach (nodes : NodeMap) : Nat → Nat → Prop where
  | refl (x : Nat) (n : Node) (h : lookupNode nodes x = some n) : Reach nodes x x
  | step (x y z : Nat) (ny nz : Node) (hxy : Reach nodes x y)
      (hny : lookupNode nodes y = some ny) (hz : z ∈ ny.children)
      (hnz : lookupNode nodes z = some nz) : Reach nodes x z

/-- Freshness of a generated UUID: the id is not a key of the mapping,
not a root id, and not listed among any node's children. -/
def FreshId (st : ConvState) (i : Nat) : Prop :=
  lookupNode st.nodes i = none ∧ i ∉ st.rootIds ∧ ∀ p ∈ st.nodes, i ∉ p.2.children

instance (st : ConvState) (i : Nat) : Decidable (FreshId st i) := by
  unfold FreshId; infer_instance

/-- A one-node example forest: a single assistant root with id 5. -/
def nodeA : Node := ⟨5, "assistant", "hello", none, [], "t0", some 5⟩

/-- The example state holding only `nodeA`. -/
def stA : ConvState := ⟨[(5, nodeA)], [5]⟩

/-- Example forest with two roots: node 1 (root, child 2) and node 3. -/
def nodeB1 : Node := ⟨1, "user", "a", none, [2], "t0", some 1⟩

/-- Child of `nodeB1`. -/
def nodeB2 : Node := ⟨2, "assistant", "b", some 1, [], "t1", some 1⟩

/-- A second, unrelated root. -/
def nodeB3 : Node := ⟨3, "user", "c", none, [], "t2", some 3⟩

/-- The two-root example state. -/
def stB : ConvState := ⟨[(1, nodeB1), (2, nodeB2), (3, nodeB3)], [1, 3]⟩

/-- Well-formedness: each stored node's `id` field matches its key. -/
def KeyConsistent (nodes : NodeMap) : Prop := ∀ p ∈ nodes, p.2.id = p.1

instance (nodes : NodeMap) : Decidable (KeyConsistent nodes) := by
  unfold KeyConsistent; infer_instance

/-- Well-formedness: every stored `parentId` resolves in the mapping. -/
def ParentClosed (nodes : NodeMap) : Prop :=
  ∀ p ∈ nodes, ∀ q, p.2.parentId = some q → (lookupNode nodes q).isSome = true

instance (nodes : NodeMap) : Decidable (ParentClosed nodes) := by
  unfold ParentClosed; infer_instance

theorem lookupNode_append (l1 l2 : NodeMap) (i : Nat) :
    lookupNode (l1 ++ l2) i =
      match lookupNode l1 i with
      | some n => some n
      | none => lookupNode l2 i := by
  induction l1 with
  | nil => simp [lookupNode]
  | cons p t ih =>
    by_cases hp : p.1 = i
    · simp [lookupNode, hp]
    · simpa [lookupNode, hp] using ih

theorem lookupNode_mapEntry (nodes : NodeMap) (pid k : Nat) (f : Node → Node) :
    lookupNode (nodes.map (fun p => if p.1 = pid then (p.1, f p.2) else p)) k =
      if k = pid then (lookupNode nodes pid).map f else lookupNode nodes k := by
  induction nodes with
  | nil =>
    by_cases hk : k = pid <;> simp [lookupNode, hk]
  | cons p t ih =>
    obtain ⟨pk, pn⟩ := p
    simp only [List.map_cons]
    by_cases hpp : pk = pid
    · subst hpp
      rw [if_pos rfl]
      by_cases hpk : pk = k
      · subst hpk
        simp [lookupNode]
      · have hkp : ¬k = pk := fun h => hpk h.symm
        simp only [lookupNode, if_neg hpk, ih, if_neg hkp]
    · rw [if_neg hpp]
      by_cases hpk : pk = k
      · subst hpk
        have hkp : ¬pk = pid := hpp
        simp [lookupNode, hkp]
      · simp only [lookupNode, if_neg hpk, ih]
        by_cases hk : k = pid
        · rw [if_pos hk, if_pos hk]
          have : ¬pk = pid := hpp
          rw [if_neg this]
        · rw [if_neg hk, if_neg hk]

theorem lookupNode_pushChild (nodes : NodeMap) (pid cid k : Nat) :
    lookupNode (pushChild nodes pid cid) k =
      if k = pid then
        (lookupNode nodes pid).map (fun n => { n with children := n.children ++ [cid] })
      else lookupNode nodes k :=
  lookupNode_mapEntry nodes pid k (fun n => { n with children := n.children ++ [cid] })

theorem lookupNode_removeKey (nodes : NodeMap) (i k : Nat) :
    lookupNode (removeKey nodes i) k =
      if k = i then none else lookupNode nodes k := by
  induction nodes with
  | nil => by_cases hk : k = i <;> simp [removeKey, lookupNode, hk]
  | cons p t ih =>
    obtain ⟨pk, pn⟩ := p
    by_cases hp : pk = i
    · have hcond : (decide ((pk, pn).1 ≠ i)) = false := by simpa using hp
      show lookupNode (List.filter _ ((pk, pn) :: t)) k = _
      rw [List.filter_cons_of_neg (by simpa using hcond)]
      rw [show List.filter (fun p => decide (p.1 ≠ i)) t = removeKey t i from rfl, ih]
      by_cases hk : k = i
      · simp [hk]
      · have hne : ¬pk = k := fun h => hk (h ▸ hp)
        simp [lookupNode, hne, hk]
    · show lookupNode (List.filter _ ((pk, pn) :: t)) k = _
      rw [List.filter_cons_of_pos (by simpa using hp)]
      by_cases hpk : pk = k
      · subst hpk
        have hki : ¬pk = i := hp
        simp [lookupNode, hki]
      · simp only [lookupNode, if_neg hpk]
        rw [show List.filter (fun p => decide (p.1 ≠ i)) t = removeKey t i from rfl, ih]

theorem lookupNode_append_self (nodes : NodeMap) (i : Nat) (n : Node)
    (h : lookupNode nodes i = none) :
    lookupNode (nodes ++ [(i, n)]) i = some n := by
  rw [lookupNode_append, h]
  simp [lookupNode]

theorem lookupNode_append_other (nodes : NodeMap) (i k : Nat) (n : Node)
    (hk : ¬k = i) :
    lookupNode (nodes ++ [(i, n)]) k = lookupNode nodes k := by
  rw [lookupNode_append]
  cases hl : lookupNode nodes k with
  | some v => rfl
  | none =>
    simp only [lookupNode]
    rw [if_neg (fun h => hk h.symm)]

theorem mem_of_lookupNode {nodes : NodeMap} {k : Nat} {n : Node}
    (h : lookupNode nodes k = some n) : (k, n) ∈ nodes := by
  induction nodes with
  | nil => simp [lookupNode] at h
  | cons p t ih =>
    obtain ⟨pk, pn⟩ := p
    simp only [lookupNode] at h
    by_cases hp : pk = k
    · rw [if_pos hp] at h
      subst hp
      cases h
      simp
    · rw [if_neg hp] at h
      simp [ih h]

/-- The state and node produced by a parentless `createNode` call with a
fresh id. -/
theorem createNode_root_eq (st : ConvState) (role c : String) (i : Nat) (ts : String)
    (hfresh : lookupNode st.nodes i = none) :
    createNode st role c none i ts =
      ({ nodes := st.nodes ++ [(i, ⟨i, role, c, none, [], ts, some i⟩)],
         rootIds := st.rootIds ++ [i] },
        ⟨i, role, c, none, [], ts, some i⟩) := by
  unfold createNode setNode
  rw [hfresh]
  simp only [Option.isSome_none, Bool.false_eq_true, if_false]
  rw [lookupNode_append_self _ _ _ hfresh]
  rfl

/-- The state and node produced by a `createNode` call whose parent id
resolves, with a fresh id. -/
theorem createNode_parent_eq (st : ConvState) (role c : String) (pid i : Nat)
    (ts : String) (parent : Node)
    (hfresh : lookupNode st.nodes i = none)
    (hpar : lookupNode st.nodes pid = some parent) :
    createNode st role c (some pid) i ts =
      ({ nodes := pushChild st.nodes pid i ++
            [(i, ⟨i, role, c, some pid, [], ts, some (parent.rootId.getD parent.id)⟩)],
         rootIds := st.rootIds },
        ⟨i, role, c, some pid, [], ts, some (parent.rootId.getD parent.id)⟩) := by
  have hne : ¬pid = i := fun h => by rw [h, hfresh] at hpar; cases hpar
  unfold createNode setNode
  rw [hfresh]
  simp only [Option.isSome_none, Bool.false_eq_true, if_false, hpar]
  rw [lookupNode_append_other _ _ _ _ hne, hpar]
  simp only
  have hpush : pushChild (st.nodes ++ [(i, ⟨i, role, c, some pid, [], ts,
      some (parent.rootId.getD parent.id)⟩)]) pid i =
      pushChild st.nodes pid i ++
        [(i, ⟨i, role, c, some pid, [], ts, some (parent.rootId.getD parent.id)⟩)] := by
    unfold pushChild
    rw [List.map_append]
    have hni : ¬i = pid := fun h => hne h.symm
    simp [hni]
  rw [hpush]
  rw [lookupNode_append_self]
  · rfl
  · have hni : ¬i = pid := fun h => hne h.symm
    rw [lookupNode_pushChild, if_neg hni, hfresh]

/-- The state and node produced by a `createNode` call whose parent id is
dangling, with a fresh id distinct from the parent id. -/
theorem createNode_orphan_eq (st : ConvState) (role c : String) (pid i : Nat)
    (ts : String)
    (hfresh : lookupNode st.nodes i = none)
    (hpar : lookupNode st.nodes pid = none)
    (hne : pid ≠ i) :
    createNode st role c (some pid) i ts =
      ({ nodes := st.nodes ++ [(i, ⟨i, role, c, some pid, [], ts, some i⟩)],
         rootIds := st.rootIds },
        ⟨i, role, c, some pid, [], ts, some i⟩) := by
  unfold createNode setNode
  rw [hfresh]
  simp only [Option.isSome_none, Bool.false_eq_true, if_false, hpar]
  rw [lookupNode_append_other _ _ _ _ hne, hpar]
  rw [lookupNode_append_self _ _ _ hfresh]
  rfl

theorem Reach.src_exists {nodes : NodeMap} {x y : Nat} (h : Reach nodes x y) :
    ∃ n, lookupNode nodes x = some n := by
  induction h with
  | refl n hl => exact ⟨n, hl⟩
  | step y z ny nz hxy hny hz hnz ih => exact ih

theorem Reach.tgt_exists {nodes : NodeMap} {x y : Nat} (h : Reach nodes x y) :
    ∃ n, lookupNode nodes y = some n := by
  induction h with
  | refl n hl => exact ⟨n, hl⟩
  | step y z ny nz hxy hny hz hnz ih => exact ⟨nz, hnz⟩

/-- A reached id is the start itself or a child of some existing node. -/
theorem Reach.tail_shape {nodes : NodeMap} {x z : Nat} (h : Reach nodes x z) :
    z = x ∨ ∃ y ny, lookupNode nodes y = some ny ∧ z ∈ ny.children := by
  induction h with
  | refl n hl => exact Or.inl rfl
  | step y z ny nz hxy hny hz hnz ih => exact Or.inr ⟨y, ny, hny, hz⟩

theorem Reach.trans {nodes : NodeMap} {x y z : Nat}
    (h1 : Reach nodes x y) (h2 : Reach nodes y z) : Reach nodes x z := by
  induction h2 with
  | refl n hl => exact h1
  | step b c nb nc hab hnb hc hnc ih => exact Reach.step _ _ _ nb nc ih hnb hc hnc

/-- Reachability is monotone under pointwise extension of the mapping. -/
theorem Reach.mono {N N' : NodeMap} {x y : Nat}
    (hsub : ∀ k n, lookupNode N k = some n → lookupNode N' k = some n)
    (h : Reach N x y) : Reach N' x y := by
  induction h with
  | refl n hl => exact Reach.refl _ n (hsub _ n hl)
  | step b c nb nc hab hnb hc hnc ih =>
    exact Reach.step _ b c nb nc ih (hsub b nb hnb) hc (hsub c nc hnc)

/-- If an id is listed in no existing node's `children`, nothing distinct
from it reaches it. -/
theorem not_reach_of_not_child (nodes : NodeMap) (i r : Nat) (hri : r ≠ i)
    (hch : ∀ y ny, lookupNode nodes y = some ny → i ∉ ny.children) :
    ¬ Reach nodes r i := by
  intro h
  rcases h.tail_shape with heq | ⟨y, ny, hny, hz⟩
  · exact hri heq.symm
  · exact hch y ny hny hz

/-- Every binding surviving the deletion loop was already present with the
same value: the loop only ever removes keys. -/
theorem delLoop_subset (nodes : NodeMap) (stack : List Nat) :
    ∀ k v, lookupNode (delLoop nodes stack) k = some v → lookupNode nodes k = some v := by
  induction nodes, stack using delLoop.induct with
  | case1 nodes => intro k v h; simpa [delLoop] using h
  | case2 nodes currentId rest hcur ih =>
    intro k v h
    rw [delLoop, hcur] at h
    exact ih k v h
  | case3 nodes currentId rest node hcur ih =>
    intro k v h
    rw [delLoop, hcur] at h
    have h2 := ih k v h
    rw [lookupNode_removeKey] at h2
    by_cases hk : k = currentId
    · rw [if_pos hk] at h2; cases h2
    · rw [if_neg hk] at h2; exact h2

/-- C7: pruning to an id that does not resolve to an existing node leaves
the forest exactly as it was; no error is raised (the operation is total). -/
theorem claim_C7_prune_missing_is_noop (st : ConvState) (r : Nat)
    (h : lookupNode st.nodes r = none) : pruneToRoot st r = st := by
  unfold pruneToRoot
  rw [h]

/-- C10: `deleteSubtree` never touches the root-id sequence; in particular
a deleted root's id stays listed there while its node vanishes from the
mapping, leaving the root id dangling. -/
theorem claim_C10_deleteSubtree_rootIds (st : ConvState) (n : Nat) :
    (deleteSubtree st n).rootIds = st.rootIds ∧
    (n ∈ st.rootIds → n ∈ (deleteSubtree st n).rootIds) ∧
    ((lookupNode st.nodes n).isSome → lookupNode (deleteSubtree st n).nodes n = none) := by
  refine ⟨rfl, ?_, ?_⟩
  · intro h
    simpa [deleteSubtree] using h
  · intro h
    obtain ⟨node, hn⟩ := Option.isSome_iff_exists.mp h
    show lookupNode (delLoop st.nodes [n]) n = none
    rw [delLoop, hn]
    cases hres : lookupNode (delLoop (removeKey st.nodes n) (node.children.reverse ++ [])) n with
    | none => rfl
    | some v =>
      have hsub := delLoop_subset _ _ n v hres
      rw [lookupNode_removeKey, if_pos rfl] at hsub
      cases hsub

/-- C2: a node created under an existing parent copies the parent's cached
root id (falling back to the parent's own id when unset), its id is
appended to the parent's `children` and appears there exactly once, and
the root-id sequence is unchanged. -/
theorem claim_C2_child_copies_rootId (st : ConvState) (role c : String)
    (pid i : Nat) (ts : String) (parent : Node)
    (hpar : lookupNode st.nodes pid = some parent)
    (hfresh : FreshId st i) :
    (createNode st role c (some pid) i ts).2.rootId
        = some (parent.rootId.getD parent.id) ∧
    lookupNode (createNode st role c (some pid) i ts).1.nodes pid
        = some { parent with children := parent.children ++ [i] } ∧
    (parent.children ++ [i]).count i = 1 ∧
    (createNode st role c (some pid) i ts).1.rootIds = st.rootIds := by
  obtain ⟨hfl, hfr, hfc⟩ := hfresh
  have heq := createNode_parent_eq st role c pid i ts parent hfl hpar
  have hne : ¬pid = i := fun h => by rw [h, hfl] at hpar; cases hpar
  refine ⟨by rw [heq], ?_, ?_, by rw [heq]⟩
  · rw [heq]
    show lookupNode (pushChild st.nodes pid i ++ _) pid = _
    rw [lookupNode_append_other _ _ _ _ hne, lookupNode_pushChild, if_pos rfl, hpar]
    rfl
  · have hnotmem : i ∉ parent.children := hfc (pid, parent) (mem_of_lookupNode hpar)
    rw [List.count_append]
    rw [List.count_eq_zero.mpr hnotmem]
    simp

/-- C3: a parentless node is its own root: its cached root id is its own
id, and its id is appended to the root-id sequence, where it occurs
exactly once. -/
theorem claim_C3_parentless_own_root (st : ConvState) (role c : String)
    (i : Nat) (ts : String) (hfresh : FreshId st i) :
    (createNode st role c none i ts).2.rootId
        = some (createNode st role c none i ts).2.id ∧
    (createNode st role c none i ts).1.rootIds = st.rootIds ++ [i] ∧
    (createNode st role c none i ts).1.rootIds.count i = 1 := by
  obtain ⟨hfl, hfr, hfc⟩ := hfresh
  have heq := createNode_root_eq st role c i ts hfl
  refine ⟨by rw [heq], by rw [heq], ?_⟩
  rw [heq]
  show (st.rootIds ++ [i]).count i = 1
  rw [List.count_append, List.count_eq_zero.mpr hfr]
  simp

/-- C9: a node created under a dangling parent id is still inserted, with
root id equal to its own id, but is appended neither to the root-id
sequence nor to any node's children, leaving it unreachable from every
root. -/
theorem claim_C9_orphan_insert_unreachable (st : ConvState) (role c : String)
    (pid i : Nat) (ts : String)
    (hpar : lookupNode st.nodes pid = none)
    (hfresh : FreshId st i) (hne : pid ≠ i) :
    lookupNode (createNode st role c (some pid) i ts).1.nodes i
        = some (createNode st role c (some pid) i ts).2 ∧
    (createNode st role c (some pid) i ts).2.rootId = some i ∧
    (createNode st role c (some pid) i ts).1.rootIds = st.rootIds ∧
    (∀ k, k ≠ i →
      lookupNode (createNode st role c (some pid) i ts).1.nodes k = lookupNode st.nodes k) ∧
    i ∉ (createNode st role c (some pid) i ts).1.rootIds ∧
    (∀ p ∈ (createNode st role c (some pid) i ts).1.nodes, p.1 ≠ i → i ∉ p.2.children) ∧
    (∀ r ∈ (createNode st role c (some pid) i ts).1.rootIds,
      ¬ Reach (createNode st role c (some pid) i ts).1.nodes r i) := by
  obtain ⟨hfl, hfr, hfc⟩ := hfresh
  have heq := createNode_orphan_eq st role c pid i ts hfl hpar hne
  rw [heq]
  refine ⟨lookupNode_append_self _ _ _ hfl, rfl, rfl, ?_, hfr, ?_, ?_⟩
  · intro k hk
    exact lookupNode_append_other _ _ _ _ hk
  · intro p hp hpi
    rcases List.mem_append.mp hp with hmem | hmem
    · exact hfc p hmem
    · rw [List.mem_singleton] at hmem
      subst hmem
      exact absurd rfl hpi
  · intro r hr
    have hri : r ≠ i := fun h => hfr (h ▸ hr)
    apply not_reach_of_not_child _ i r hri
    intro y ny hny
    by_cases hy : y = i
    · subst hy
      rw [lookupNode_append_self _ _ _ hfl] at hny
      cases hny
      simp
    · rw [lookupNode_append_other _ _ _ _ hy] at hny
      exact hfc (y, ny) (mem_of_lookupNode hny)

theorem claim_C7_witness :
    lookupNode stA.nodes 9 = none ∧ pruneToRoot stA 9 = stA :=
  ⟨by decide, claim_C7_prune_missing_is_noop stA 9 (by decide)⟩

theorem claim_C10_witness :
    5 ∈ stA.rootIds ∧ (lookupNode stA.nodes 5).isSome ∧
    5 ∈ (deleteSubtree stA 5).rootIds ∧
    lookupNode (deleteSubtree stA 5).nodes 5 = none :=
  ⟨by decide, by decide,
    (claim_C10_deleteSubtree_rootIds stA 5).2.1 (by decide),
    (claim_C10_deleteSubtree_rootIds stA 5).2.2 (by decide)⟩

theorem claim_C2_witness :
    lookupNode stA.nodes 5 = some nodeA ∧ FreshId stA 7 ∧
    (createNode stA "user" "hi" (some 5) 7 "t1").2.rootId
        = some (nodeA.rootId.getD nodeA.id) ∧
    (nodeA.children ++ [7]).count 7 = 1 ∧
    (createNode stA "user" "hi" (some 5) 7 "t1").1.rootIds = stA.rootIds :=
  ⟨by decide, by decide,
    (claim_C2_child_copies_rootId stA "user" "hi" 5 7 "t1" nodeA (by decide) (by decide)).1,
    (claim_C2_child_copies_rootId stA "user" "hi" 5 7 "t1" nodeA (by decide) (by decide)).2.2.1,
    (claim_C2_child_copies_rootId stA "user" "hi" 5 7 "t1" nodeA (by decide) (by decide)).2.2.2⟩

theorem claim_C3_witness :
    FreshId stA 7 ∧
    (createNode stA "user" "topic" none 7 "t1").2.rootId
        = some (createNode stA "user" "topic" none 7 "t1").2.id ∧
    (createNode stA "user" "topic" none 7 "t1").1.rootIds = stA.rootIds ++ [7] ∧
    (createNode stA "user" "topic" none 7 "t1").1.rootIds.count 7 = 1 :=
  ⟨by decide,
    (claim_C3_parentless_own_root stA "user" "topic" 7 "t1" (by decide)).1,
    (claim_C3_parentless_own_root stA "user" "topic" 7 "t1" (by decide)).2.1,
    (claim_C3_parentless_own_root stA "user" "topic" 7 "t1" (by decide)).2.2⟩

theorem claim_C9_witness :
    lookupNode stA.nodes 9 = none ∧ FreshId stA 7 ∧ (9 : Nat) ≠ 7 ∧
    (createNode stA "user" "lost" (some 9) 7 "t1").2.rootId = some 7 ∧
    (createNode stA "user" "lost" (some 9) 7 "t1").1.rootIds = stA.rootIds ∧
    7 ∉ (createNode stA "user" "lost" (some 9) 7 "t1").1.rootIds :=
  ⟨by decide, by decide, by decide,
    (claim_C9_orphan_insert_unreachable stA "user" "lost" 9 7 "t1" (by decide) (by decide)
      (by decide)).2.1,
    (claim_C9_orphan_insert_unreachable stA "user" "lost" 9 7 "t1" (by decide) (by decide)
      (by decide)).2.2.1,
    (claim_C9_orphan_insert_unreachable stA "user" "lost" 9 7 "t1" (by decide) (by decide)
      (by decide)).2.2.2.2.1⟩

/-- The breadth-first walk only appends to the retained list. -/
theorem bfsLoop_prefix (nodes : NodeMap) (retained queue : List Nat) :
    ∃ l, bfsLoop nodes retained queue = retained ++ l := by
  induction retained, queue using bfsLoop.induct nodes with
  | case1 retained => exact ⟨[], by rw [bfsLoop]; simp⟩
  | case2 retained currentId rest hmem ih =>
    obtain ⟨l, hl⟩ := ih
    exact ⟨l, by rw [bfsLoop, if_pos hmem]; exact hl⟩
  | case3 retained currentId rest hmem hlook ih =>
    obtain ⟨l, hl⟩ := ih
    exact ⟨l, by rw [bfsLoop, if_neg hmem, hlook]; exact hl⟩
  | case4 retained currentId rest hmem node hlook ih =>
    obtain ⟨l, hl⟩ := ih
    refine ⟨currentId :: l, ?_⟩
    rw [bfsLoop, if_neg hmem, hlook]
    show bfsLoop nodes (retained ++ [currentId])
        (rest ++ node.children.filter (fun c => c ∉ retained ++ [currentId])) =
      retained ++ currentId :: l
    rw [hl]
    simp

theorem mem_bfsLoop_of_mem_retained (nodes : NodeMap) (retained queue : List Nat)
    (x : Nat) (hx : x ∈ retained) : x ∈ bfsLoop nodes retained queue := by
  obtain ⟨l, hl⟩ := bfsLoop_prefix nodes retained queue
  rw [hl]
  exact List.mem_append_left _ hx

/-- Every id the walk retains exists in the mapping. -/
theorem bfsLoop_all_exist (nodes : NodeMap) (retained queue : List Nat) :
    (∀ t ∈ retained, (lookupNode nodes t).isSome) →
    ∀ x ∈ bfsLoop nodes retained queue, (lookupNode nodes x).isSome := by
  induction retained, queue using bfsLoop.induct nodes with
  | case1 retained =>
    intro hr
    rw [bfsLoop]
    exact hr
  | case2 retained currentId rest hmem ih =>
    intro hr
    rw [bfsLoop, if_pos hmem]
    exact ih hr
  | case3 retained currentId rest hmem hlook ih =>
    intro hr
    rw [bfsLoop, if_neg hmem, hlook]
    exact ih hr
  | case4 retained currentId rest hmem node hlook ih =>
    intro hr
    rw [bfsLoop, if_neg hmem, hlook]
    refine ih ?_
    intro t ht
    rcases List.mem_append.mp ht with h1 | h1
    · exact hr t h1
    · rw [List.mem_singleton] at h1
      subst h1
      rw [hlook]
      rfl

/-- The retained list stays duplicate-free. -/
theorem bfsLoop_nodup (nodes : NodeMap) (retained queue : List Nat) :
    retained.Nodup → (bfsLoop nodes retained queue).Nodup := by
  induction retained, queue using bfsLoop.induct nodes with
  | case1 retained =>
    intro hnd
    rw [bfsLoop]
    exact hnd
  | case2 retained currentId rest hmem ih =>
    intro hnd
    rw [bfsLoop, if_pos hmem]
    exact ih hnd
  | case3 retained currentId rest hmem hlook ih =>
    intro hnd
    rw [bfsLoop, if_neg hmem, hlook]
    exact ih hnd
  | case4 retained currentId rest hmem node hlook ih =>
    intro hnd
    rw [bfsLoop, if_neg hmem, hlook]
    refine ih ?_
    rw [List.nodup_append]
    refine ⟨hnd, List.nodup_singleton _, ?_⟩
    intro a ha hb
    rw [List.mem_singleton] at hb
    subst hb
    exact hmem ha

/-- Soundness of the walk: under the natural queue invariant, every
retained id is reachable from `r`. -/
theorem bfsLoop_sound (nodes : NodeMap) (r : Nat) (retained queue : List Nat) :
    (∀ t ∈ retained, Reach nodes r t) →
    (∀ q ∈ queue, q = r ∨ ∃ p np, p ∈ retained ∧ lookupNode nodes p = some np ∧
        q ∈ np.children) →
    ∀ x ∈ bfsLoop nodes retained queue, Reach nodes r x := by
  induction retained, queue using bfsLoop.induct nodes with
  | case1 retained =>
    intro hr _
    rw [bfsLoop]
    exact hr
  | case2 retained currentId rest hmem ih =>
    intro hr hq
    rw [bfsLoop, if_pos hmem]
    refine ih hr ?_
    intro q hqm
    exact hq q (List.mem_cons_of_mem _ hqm)
  | case3 retained currentId rest hmem hlook ih =>
    intro hr hq
    rw [bfsLoop, if_neg hmem, hlook]
    refine ih hr ?_
    intro q hqm
    exact hq q (List.mem_cons_of_mem _ hqm)
  | case4 retained currentId rest hmem node hlook ih =>
    intro hr hq
    rw [bfsLoop, if_neg hmem, hlook]
    have hcur : Reach nodes r currentId := by
      rcases hq currentId (List.mem_cons_self _ _) with hc | ⟨p, np, hp, hnp, hchild⟩
      · subst hc
        exact Reach.refl _ node hlook
      · exact Reach.step _ p currentId np node (hr p hp) hnp hchild hlook
    refine ih ?_ ?_
    · intro t ht
      rcases List.mem_append.mp ht with h1 | h1
      · exact hr t h1
      · rw [List.mem_singleton] at h1
        subst h1
        exact hcur
    · intro q hqm
      rcases List.mem_append.mp hqm with h1 | h1
      · rcases hq q (List.mem_cons_of_mem _ h1) with hc | ⟨p, np, hp, hnp, hchild⟩
        · exact Or.inl hc
        · exact Or.inr ⟨p, np, List.mem_append_left _ hp, hnp, hchild⟩
      · have hqch : q ∈ node.children := List.mem_of_mem_filter h1
        exact Or.inr ⟨currentId, node, List.mem_append_right _ (List.mem_singleton_self _),
          hlook, hqch⟩

/-- Every queued id ends up retained or is dangling. -/
theorem bfsLoop_processed (nodes : NodeMap) (retained queue : List Nat) :
    ∀ q ∈ queue, q ∈ bfsLoop nodes retained queue ∨ lookupNode nodes q = none := by
  induction retained, queue using bfsLoop.induct nodes with
  | case1 retained =>
    intro q hq
    cases hq
  | case2 retained currentId rest hmem ih =>
    intro q hq
    rw [bfsLoop, if_pos hmem]
    rcases List.mem_cons.mp hq with h1 | h1
    · subst h1
      exact Or.inl (mem_bfsLoop_of_mem_retained _ _ _ _ hmem)
    · exact ih q h1
  | case3 retained currentId rest hmem hlook ih =>
    intro q hq
    rw [bfsLoop, if_neg hmem, hlook]
    rcases List.mem_cons.mp hq with h1 | h1
    · subst h1
      exact Or.inr hlook
    · exact ih q h1
  | case4 retained currentId rest hmem node hlook ih =>
    intro q hq
    rw [bfsLoop, if_neg hmem, hlook]
    rcases List.mem_cons.mp hq with h1 | h1
    · subst h1
      exact Or.inl (mem_bfsLoop_of_mem_retained _ _ _ _
        (List.mem_append_right _ (List.mem_singleton_self _)))
    · exact ih q (List.mem_append_left _ h1)

/-- The result of the walk is closed under existing children, relative to
the closure invariant on the starting retained list and queue. -/
theorem bfsLoop_closed (nodes : NodeMap) (retained queue : List Nat) :
    (∀ t ∈ retained, ∀ nt, lookupNode nodes t = some nt →
      ∀ c ∈ nt.children, c ∈ retained ∨ c ∈ queue ∨ lookupNode nodes c = none) →
    ∀ x ∈ bfsLoop nodes retained queue, ∀ nx, lookupNode nodes x = some nx →
      ∀ c ∈ nx.children, c ∈ bfsLoop nodes retained queue ∨ lookupNode nodes c = none := by
  induction retained, queue using bfsLoop.induct nodes with
  | case1 retained =>
    intro hC
    rw [bfsLoop]
    intro x hx nx hnx c hc
    rcases hC x hx nx hnx c hc with h1 | h1 | h1
    · exact Or.inl h1
    · cases h1
    · exact Or.inr h1
  | case2 retained currentId rest hmem ih =>
    intro hC
    rw [bfsLoop, if_pos hmem]
    refine ih ?_
    intro t ht nt hnt c hc
    rcases hC t ht nt hnt c hc with h1 | h1 | h1
    · exact Or.inl h1
    · rcases List.mem_cons.mp h1 with h2 | h2
      · subst h2
        exact Or.inl hmem
      · exact Or.inr (Or.inl h2)
    · exact Or.inr (Or.inr h1)
  | case3 retained currentId rest hmem hlook ih =>
    intro hC
    rw [bfsLoop, if_neg hmem, hlook]
    refine ih ?_
    intro t ht nt hnt c hc
    rcases hC t ht nt hnt c hc with h1 | h1 | h1
    · exact Or.inl h1
    · rcases List.mem_cons.mp h1 with h2 | h2
      · subst h2
        exact Or.inr (Or.inr hlook)
      · exact Or.inr (Or.inl h2)
    · exact Or.inr (Or.inr h1)
  | case4 retained currentId rest hmem node hlook ih =>
    intro hC
    rw [bfsLoop, if_neg hmem, hlook]
    refine ih ?_
    intro t ht nt hnt c hc
    rcases List.mem_append.mp ht with h1 | h1
    · rcases hC t h1 nt hnt c hc with h2 | h2 | h2
      · exact Or.inl (List.mem_append_left _ h2)
      · rcases List.mem_cons.mp h2 with h3 | h3
        · subst h3
          exact Or.inl (List.mem_append_right _ (List.mem_singleton_self _))
        · exact Or.inr (Or.inl (List.mem_append_left _ h3))
      · exact Or.inr (Or.inr h2)
    · rw [List.mem_singleton] at h1
      subst h1
      rw [hlook] at hnt
      cases hnt
      by_cases hcr : c ∈ retained ++ [t]
      · exact Or.inl hcr
      · refine Or.inr (Or.inl (List.mem_append_right _ ?_))
        rw [List.mem_filter]
        exact ⟨hc, by simpa using hcr⟩

/-- The walk started from an existing root retains exactly the ids
reachable from it. -/
theorem bfsLoop_reach_iff (nodes : NodeMap) (r : Nat) (n0 : Node)
    (h : lookupNode nodes r = some n0) :
    ∀ x, x ∈ bfsLoop nodes [] [r] ↔ Reach nodes r x := by
  intro x
  constructor
  · intro hx
    refine bfsLoop_sound nodes r [] [r] ?_ ?_ x hx
    · intro t ht
      cases ht
    · intro q hq
      rw [List.mem_singleton] at hq
      exact Or.inl hq
  · intro hx
    induction hx with
    | refl n hl =>
      rcases bfsLoop_processed nodes [] [r] r (List.mem_singleton_self _) with h1 | h1
      · exact h1
      · rw [h1] at h
        cases h
    | step y z ny nz hxy hny hz hnz ih =>
      have hcl := bfsLoop_closed nodes [] [r] (by intro t ht; cases ht) y ih ny hny z hz
      rcases hcl with h1 | h1
      · exact h1
      · rw [h1] at hnz
        cases hnz

/-- Lookup in the rebuilt mapping of `pruneToRoot`: a key resolves exactly
when it is retained and existed, and its node is rewritten by `f`. -/
theorem lookupNode_filterMap (nodes : NodeMap) (R : List Nat) (f : Nat → Node → Node)
    (hnd : R.Nodup) (k : Nat) :
    lookupNode (R.filterMap (fun i => (lookupNode nodes i).map (fun n => (i, f i n)))) k =
      if k ∈ R then (lookupNode nodes k).map (f k) else none := by
  induction R with
  | nil => simp [lookupNode]
  | cons a t ih =>
    rw [List.nodup_cons] at hnd
    obtain ⟨hat, hndt⟩ := hnd
    cases hla : lookupNode nodes a with
    | none =>
      have hskip : List.filterMap (fun i => (lookupNode nodes i).map (fun n => (i, f i n)))
          (a :: t) =
          List.filterMap (fun i => (lookupNode nodes i).map (fun n => (i, f i n))) t := by
        rw [List.filterMap_cons, hla]
        rfl
      rw [hskip, ih hndt]
      by_cases hk : k = a
      · subst hk
        rw [if_neg hat, if_pos (List.mem_cons_self _ _), hla]
        rfl
      · by_cases hkt : k ∈ t
        · rw [if_pos hkt, if_pos (List.mem_cons_of_mem _ hkt)]
        · rw [if_neg hkt, if_neg (by simp [hk, hkt])]
    | some n =>
      have hcons : List.filterMap (fun i => (lookupNode nodes i).map (fun n => (i, f i n)))
          (a :: t) =
          (a, f a n) ::
            List.filterMap (fun i => (lookupNode nodes i).map (fun n => (i, f i n))) t := by
        rw [List.filterMap_cons, hla]
        rfl
      rw [hcons]
      by_cases hk : k = a
      · subst hk
        simp only [lookupNode, if_pos rfl]
        rw [if_pos (List.mem_cons_self _ _), hla]
        rfl
      · simp only [lookupNode, if_neg (fun h => hk (h : a = k).symm)]
        rw [ih hndt]
        by_cases hkt : k ∈ t
        · rw [if_pos hkt, if_pos (List.mem_cons_of_mem _ hkt)]
        · rw [if_neg hkt, if_neg (by simp [hk, hkt])]

/-- Unfolding of `pruneToRoot` at an existing root. -/
theorem pruneToRoot_eq (st : ConvState) (r : Nat) (n0 : Node)
    (h : lookupNode st.nodes r = some n0) :
    pruneToRoot st r =
      { nodes := (bfsLoop st.nodes [] [r]).filterMap (fun i =>
          (lookupNode st.nodes i).map (fun node =>
            (i, { node with children :=
                    node.children.filter (fun c => c ∈ bfsLoop st.nodes [] [r]) }))),
        rootIds := [r] } := by
  unfold pruneToRoot
  rw [h]

/-- Lookup in the pruned forest: a key resolves exactly when retained by
the walk, to the original node with its children filtered to retained ids. -/
theorem lookupNode_pruneToRoot (st : ConvState) (r : Nat) (n0 : Node)
    (h : lookupNode st.nodes r = some n0) (x : Nat) :
    lookupNode (pruneToRoot st r).nodes x =
      if x ∈ bfsLoop st.nodes [] [r] then
        (lookupNode st.nodes x).map (fun n =>
          { n with children := n.children.filter (fun c => c ∈ bfsLoop st.nodes [] [r]) })
      else none := by
  have hnd : (bfsLoop st.nodes [] [r]).Nodup := bfsLoop_nodup st.nodes [] [r] List.nodup_nil
  rw [pruneToRoot_eq st r n0 h]
  exact lookupNode_filterMap st.nodes (bfsLoop st.nodes [] [r])
    (fun _ n =>
      { n with children := n.children.filter (fun c => c ∈ bfsLoop st.nodes [] [r]) }) hnd x

/-- The pruned forest's root-id sequence is the singleton `[r]`. -/
theorem pruneToRoot_rootIds (st : ConvState) (r : Nat) (n0 : Node)
    (h : lookupNode st.nodes r = some n0) :
    (pruneToRoot st r).rootIds = [r] := by
  rw [pruneToRoot_eq st r n0 h]

/-- C1: pruning to an existing root keeps exactly the ids reachable from
it via `children` links, resets the root-id sequence to `[r]`, and leaves
no retained node with a dangling child reference. -/
theorem claim_C1_prune_exact_reachable (st : ConvState) (r : Nat) (n0 : Node)
    (h : lookupNode st.nodes r = some n0) :
    (∀ x, (lookupNode (pruneToRoot st r).nodes x).isSome ↔ Reach st.nodes r x) ∧
    (pruneToRoot st r).rootIds = [r] ∧
    (∀ x nx, lookupNode (pruneToRoot st r).nodes x = some nx →
      ∀ c ∈ nx.children, (lookupNode (pruneToRoot st r).nodes c).isSome) := by
  have hmem_some : ∀ x ∈ bfsLoop st.nodes [] [r], (lookupNode st.nodes x).isSome :=
    bfsLoop_all_exist st.nodes [] [r] (by intro t ht; cases ht)
  refine ⟨?_, pruneToRoot_rootIds st r n0 h, ?_⟩
  · intro x
    rw [lookupNode_pruneToRoot st r n0 h x]
    constructor
    · intro hx
      by_cases hxr : x ∈ bfsLoop st.nodes [] [r]
      · exact (bfsLoop_reach_iff st.nodes r n0 h x).mp hxr
      · rw [if_neg hxr] at hx
        cases hx
    · intro hx
      have hxr : x ∈ bfsLoop st.nodes [] [r] := (bfsLoop_reach_iff st.nodes r n0 h x).mpr hx
      rw [if_pos hxr]
      obtain ⟨nx, hnx⟩ := hx.tgt_exists
      rw [hnx]
      rfl
  · intro x nx hx c hc
    rw [lookupNode_pruneToRoot st r n0 h x] at hx
    by_cases hxr : x ∈ bfsLoop st.nodes [] [r]
    · rw [if_pos hxr] at hx
      cases hlx : lookupNode st.nodes x with
      | none => rw [hlx] at hx; cases hx
      | some nxx =>
        rw [hlx] at hx
        cases hx
        have hcr : c ∈ bfsLoop st.nodes [] [r] := by
          have := List.mem_filter.mp hc
          simpa using this.2
        rw [lookupNode_pruneToRoot st r n0 h c, if_pos hcr]
        obtain ⟨nc, hnc⟩ := Option.isSome_iff_exists.mp (hmem_some c hcr)
        rw [hnc]
        rfl
    · rw [if_neg hxr] at hx
      cases hx

theorem claim_C1_witness :
    lookupNode stB.nodes 1 = some nodeB1 ∧ (pruneToRoot stB 1).rootIds = [1] :=
  ⟨by decide, (claim_C1_prune_exact_reachable stB 1 nodeB1 (by decide)).2.1⟩

theorem bfsLoop_nil (nodes : NodeMap) (retained : List Nat) :
    bfsLoop nodes retained [] = retained := by
  rw [bfsLoop]

theorem bfsLoop_cons_of_mem (nodes : NodeMap) (retained : List Nat)
    (currentId : Nat) (rest : List Nat) (h : currentId ∈ retained) :
    bfsLoop nodes retained (currentId :: rest) = bfsLoop nodes retained rest := by
  rw [bfsLoop, if_pos h]

theorem bfsLoop_cons_of_none (nodes : NodeMap) (retained : List Nat)
    (currentId : Nat) (rest : List Nat) (h1 : currentId ∉ retained)
    (h2 : lookupNode nodes currentId = none) :
    bfsLoop nodes retained (currentId :: rest) = bfsLoop nodes retained rest := by
  rw [bfsLoop, if_neg h1, h2]

theorem bfsLoop_cons_of_some (nodes : NodeMap) (retained : List Nat)
    (currentId : Nat) (rest : List Nat) (node : Node) (h1 : currentId ∉ retained)
    (h2 : lookupNode nodes currentId = some node) :
    bfsLoop nodes retained (currentId :: rest) =
      bfsLoop nodes (retained ++ [currentId])
        (rest ++ node.children.filter (fun c => c ∉ retained ++ [currentId])) := by
  rw [bfsLoop, if_neg h1, h2]

/-- Pruning to a dangling id changes nothing (shared helper). -/
theorem pruneToRoot_missing_eq (st : ConvState) (r : Nat)
    (h : lookupNode st.nodes r = none) : pruneToRoot st r = st := by
  unfold pruneToRoot
  rw [h]

/-- Rerunning the breadth-first walk on the pruned forest visits the same
ids in the same order: dangling children were filtered out of the pruned
`children` lists, and those are exactly the queue entries the original
walk skipped. -/
theorem bfsLoop_pruned_sim (st : ConvState) (r : Nat) (n0 : Node)
    (h : lookupNode st.nodes r = some n0) (retained queue : List Nat) :
    (∀ q ∈ queue, (lookupNode st.nodes q).isSome = true → q ∈ bfsLoop st.nodes [] [r]) →
    bfsLoop (pruneToRoot st r).nodes retained
        (queue.filter (fun i => (lookupNode st.nodes i).isSome)) =
      bfsLoop st.nodes retained queue := by
  have hclosed := bfsLoop_closed st.nodes [] [r] (by intro t ht; cases ht)
  have hexist := bfsLoop_all_exist st.nodes [] [r] (by intro t ht; cases ht)
  induction retained, queue using bfsLoop.induct st.nodes with
  | case1 retained =>
    intro _
    rw [List.filter_nil, bfsLoop_nil, bfsLoop_nil]
  | case2 retained currentId rest hmem ih =>
    intro hq
    rw [bfsLoop_cons_of_mem st.nodes retained currentId rest hmem]
    cases hcur : (lookupNode st.nodes currentId).isSome with
    | true =>
      simp only [List.filter_cons, hcur, eq_self_iff_true, if_true]
      rw [bfsLoop_cons_of_mem (pruneToRoot st r).nodes retained currentId _ hmem]
      exact ih (fun q hqm hs => hq q (List.mem_cons_of_mem _ hqm) hs)
    | false =>
      simp only [List.filter_cons, hcur, Bool.false_eq_true, if_false]
      exact ih (fun q hqm hs => hq q (List.mem_cons_of_mem _ hqm) hs)
  | case3 retained currentId rest hmem hlook ih =>
    intro hq
    rw [bfsLoop_cons_of_none st.nodes retained currentId rest hmem hlook]
    simp only [List.filter_cons, hlook, Option.isSome_none, Bool.false_eq_true, if_false]
    exact ih (fun q hqm hs => hq q (List.mem_cons_of_mem _ hqm) hs)
  | case4 retained currentId rest hmem node hlook ih =>
    intro hq
    have hcurs : (lookupNode st.nodes currentId).isSome = true := by rw [hlook]; rfl
    have hcurR : currentId ∈ bfsLoop st.nodes [] [r] :=
      hq currentId (List.mem_cons_self _ _) hcurs
    have hstar : ∀ a ∈ node.children,
        (a ∈ bfsLoop st.nodes [] [r]) ↔ (lookupNode st.nodes a).isSome = true := by
      intro a ha
      constructor
      · intro haR
        exact hexist a haR
      · intro hs
        rcases hclosed currentId hcurR node hlook a ha with h1 | h1
        · exact h1
        · rw [h1] at hs
          cases hs
    rw [bfsLoop_cons_of_some st.nodes retained currentId rest node hmem hlook]
    simp only [List.filter_cons, hcurs, eq_self_iff_true, if_true]
    have hplook : lookupNode (pruneToRoot st r).nodes currentId =
        some { node with children :=
          node.children.filter (fun c => c ∈ bfsLoop st.nodes [] [r]) } := by
      rw [lookupNode_pruneToRoot st r n0 h currentId, if_pos hcurR, hlook]
      rfl
    rw [bfsLoop_cons_of_some (pruneToRoot st r).nodes retained currentId _ _ hmem hplook]
    have hqueue :
        rest.filter (fun i => (lookupNode st.nodes i).isSome) ++
          (node.children.filter (fun c => c ∈ bfsLoop st.nodes [] [r])).filter
            (fun c => c ∉ retained ++ [currentId]) =
        (rest ++ node.children.filter (fun c => c ∉ retained ++ [currentId])).filter
          (fun i => (lookupNode st.nodes i).isSome) := by
      rw [List.filter_append]
      congr 1
      rw [List.filter_filter, List.filter_filter]
      apply List.filter_congr
      intro a ha
      have := hstar a ha
      by_cases haR : a ∈ bfsLoop st.nodes [] [r]
      · simp [haR, this.mp haR]
      · have hnot : ¬(lookupNode st.nodes a).isSome = true := fun hs => haR (this.mpr hs)
        simp [haR, hnot]
    rw [hqueue]
    refine ih ?_
    intro q hqm hs
    rcases List.mem_append.mp hqm with h1 | h1
    · exact hq q (List.mem_cons_of_mem _ h1) hs
    · exact (hstar q (List.mem_of_mem_filter h1)).mpr hs

/-- C6: pruning twice to the same id gives exactly the forest produced by
pruning once. -/
theorem claim_C6_prune_idempotent (st : ConvState) (r : Nat) :
    pruneToRoot (pruneToRoot st r) r = pruneToRoot st r := by
  cases h : lookupNode st.nodes r with
  | none =>
    rw [pruneToRoot_missing_eq st r h]
    exact pruneToRoot_missing_eq st r h
  | some n0 =>
    have hexist := bfsLoop_all_exist st.nodes [] [r] (by intro t ht; cases ht)
    have hrR : r ∈ bfsLoop st.nodes [] [r] := by
      rcases bfsLoop_processed st.nodes [] [r] r (List.mem_singleton_self _) with h1 | h1
      · exact h1
      · rw [h1] at h; cases h
    have hpr : lookupNode (pruneToRoot st r).nodes r =
        some { n0 with children :=
          n0.children.filter (fun c => c ∈ bfsLoop st.nodes [] [r]) } := by
      rw [lookupNode_pruneToRoot st r n0 h r, if_pos hrR, h]
      rfl
    have hsim := bfsLoop_pruned_sim st r n0 h [] [r] (by
      intro q hq hs
      rw [List.mem_singleton] at hq
      rw [hq] at hs ⊢
      rcases bfsLoop_processed st.nodes [] [r] r (List.mem_singleton_self _) with h1 | h1
      · exact h1
      · rw [h1] at hs; cases hs)
    have hfilt : ([r].filter (fun i => (lookupNode st.nodes i).isSome)) = [r] := by
      simp [h]
    rw [hfilt] at hsim
    rw [pruneToRoot_eq (pruneToRoot st r) r _ hpr, hsim]
    have hmapeq : (bfsLoop st.nodes [] [r]).filterMap (fun i =>
        (lookupNode (pruneToRoot st r).nodes i).map (fun node =>
          (i, { node with children :=
            node.children.filter (fun c => c ∈ bfsLoop st.nodes [] [r]) }))) =
        (bfsLoop st.nodes [] [r]).filterMap (fun i =>
          (lookupNode st.nodes i).map (fun node =>
            (i, { node with children :=
              node.children.filter (fun c => c ∈ bfsLoop st.nodes [] [r]) }))) := by
      apply List.filterMap_congr
      intro a ha
      obtain ⟨na, hna⟩ := Option.isSome_iff_exists.mp (hexist a ha)
      have hpa : lookupNode (pruneToRoot st r).nodes a =
          some { na with children :=
            na.children.filter (fun c => c ∈ bfsLoop st.nodes [] [r]) } := by
        rw [lookupNode_pruneToRoot st r n0 h a, if_pos ha, hna]
        rfl
      have hch : (na.children.filter (fun c => c ∈ bfsLoop st.nodes [] [r])).filter
          (fun c => c ∈ bfsLoop st.nodes [] [r]) =
          na.children.filter (fun c => c ∈ bfsLoop st.nodes [] [r]) := by
        rw [List.filter_filter]
        apply List.filter_congr
        intro c _
        by_cases hc : c ∈ bfsLoop st.nodes [] [r] <;> simp [hc]
      rw [hpa, hna]
      simp only [Option.map_some']
      rw [hch]
    rw [hmapeq, pruneToRoot_eq st r n0 h]

theorem delLoop_none_of_none (nodes : NodeMap) (stack : List Nat) (k : Nat)
    (h : lookupNode nodes k = none) :
    lookupNode (delLoop nodes stack) k = none := by
  cases hres : lookupNode (delLoop nodes stack) k with
  | none => rfl
  | some v =>
    have := delLoop_subset nodes stack k v hres
    rw [this] at h
    cases h

/-- Anything the deletion loop removes was reachable from a stack entry. -/
theorem delLoop_deleted_reachable (nodes : NodeMap) (stack : List Nat) :
    ∀ k, lookupNode (delLoop nodes stack) k = none →
      lookupNode nodes k = none ∨ ∃ s ∈ stack, Reach nodes s k := by
  induction nodes, stack using delLoop.induct with
  | case1 nodes =>
    intro k h
    rw [delLoop] at h
    exact Or.inl h
  | case2 nodes currentId rest hcur ih =>
    intro k h
    rw [delLoop, hcur] at h
    rcases ih k h with h1 | ⟨s, hs, hre⟩
    · exact Or.inl h1
    · exact Or.inr ⟨s, List.mem_cons_of_mem _ hs, hre⟩
  | case3 nodes currentId rest node hcur ih =>
    intro k h
    rw [delLoop, hcur] at h
    have hsub : ∀ x nx, lookupNode (removeKey nodes currentId) x = some nx →
        lookupNode nodes x = some nx := by
      intro x nx hx
      rw [lookupNode_removeKey] at hx
      by_cases hxc : x = currentId
      · rw [if_pos hxc] at hx; cases hx
      · rw [if_neg hxc] at hx; exact hx
    rcases ih k h with h1 | ⟨s, hs, hre⟩
    · rw [lookupNode_removeKey] at h1
      by_cases hkc : k = currentId
      · subst hkc
        exact Or.inr ⟨k, List.mem_cons_self _ _, Reach.refl k node hcur⟩
      · rw [if_neg hkc] at h1
        exact Or.inl h1
    · have hre' : Reach nodes s k := hre.mono hsub
      rcases List.mem_append.mp hs with h2 | h2
      · have hsch : s ∈ node.children := List.mem_reverse.mp h2
        obtain ⟨ns, hns⟩ := hre'.src_exists
        have : Reach nodes currentId k :=
          (Reach.step _ currentId s node ns (Reach.refl _ node hcur) hcur hsch hns).trans hre'
        exact Or.inr ⟨currentId, List.mem_cons_self _ _, this⟩
      · exact Or.inr ⟨s, List.mem_cons_of_mem _ h2, hre'⟩

/-- Every stacked id ends up deleted or was already dangling. -/
theorem delLoop_processed (nodes : NodeMap) (stack : List Nat) :
    ∀ s ∈ stack, lookupNode (delLoop nodes stack) s = none ∨ lookupNode nodes s = none := by
  induction nodes, stack using delLoop.induct with
  | case1 nodes =>
    intro s hs
    cases hs
  | case2 nodes currentId rest hcur ih =>
    intro s hs
    rw [delLoop, hcur]
    rcases List.mem_cons.mp hs with h1 | h1
    · subst h1
      exact Or.inr hcur
    · exact ih s h1
  | case3 nodes currentId rest node hcur ih =>
    intro s hs
    rw [delLoop, hcur]
    by_cases hsc : s = currentId
    · subst hsc
      exact Or.inl (delLoop_none_of_none _ _ _
        (by rw [lookupNode_removeKey, if_pos rfl]))
    · rcases List.mem_cons.mp hs with h1 | h1
      · exact absurd h1 hsc
      · rcases ih s (List.mem_append_right _ h1) with h2 | h2
        · exact Or.inl h2
        · rw [lookupNode_removeKey, if_neg hsc] at h2
          exact Or.inr h2

/-- A deleted node's existing children are deleted too. -/
theorem delLoop_closure (nodes : NodeMap) (stack : List Nat) :
    ∀ x nx, lookupNode nodes x = some nx → lookupNode (delLoop nodes stack) x = none →
      ∀ c ∈ nx.children,
        lookupNode (delLoop nodes stack) c = none ∨ lookupNode nodes c = none := by
  induction nodes, stack using delLoop.induct with
  | case1 nodes =>
    intro x nx hx hdel c hc
    rw [delLoop] at hdel
    rw [hdel] at hx
    cases hx
  | case2 nodes currentId rest hcur ih =>
    intro x nx hx hdel c hc
    rw [delLoop, hcur] at hdel ⊢
    exact ih x nx hx hdel c hc
  | case3 nodes currentId rest node hcur ih =>
    intro x nx hx hdel c hc
    rw [delLoop, hcur] at hdel ⊢
    by_cases hxc : x = currentId
    · subst hxc
      rw [hcur] at hx
      cases hx
      have hcs : c ∈ node.children.reverse ++ rest :=
        List.mem_append_left _ (List.mem_reverse.mpr hc)
      rcases delLoop_processed (removeKey nodes x) (node.children.reverse ++ rest) c hcs with
        h1 | h1
      · exact Or.inl h1
      · rw [lookupNode_removeKey] at h1
        by_cases hcc : c = x
        · subst hcc
          exact Or.inl (delLoop_none_of_none _ _ _
            (by rw [lookupNode_removeKey, if_pos rfl]))
        · rw [if_neg hcc] at h1
          exact Or.inr h1
    · have hx' : lookupNode (removeKey nodes currentId) x = some nx := by
        rw [lookupNode_removeKey, if_neg hxc]
        exact hx
      rcases ih x nx hx' hdel c hc with h1 | h1
      · exact Or.inl h1
      · rw [lookupNode_removeKey] at h1
        by_cases hcc : c = currentId
        · subst hcc
          exact Or.inl (delLoop_none_of_none _ _ _
            (by rw [lookupNode_removeKey, if_pos rfl]))
        · rw [if_neg hcc] at h1
          exact Or.inr h1

/-- Everything reachable from the deletion start is removed. -/
theorem delLoop_reach_none (nodes : NodeMap) (s : Nat) :
    ∀ x, Reach nodes s x → lookupNode (delLoop nodes [s]) x = none := by
  intro x hx
  induction hx with
  | refl n hl =>
    rcases delLoop_processed nodes [s] s (List.mem_singleton_self _) with h1 | h1
    · exact h1
    · rw [h1] at hl
      cases hl
  | step y z ny nz hxy hny hz hnz ih =>
    rcases delLoop_closure nodes [s] y ny hny ih z hz with h1 | h1
    · exact h1
    · rw [h1] at hnz
      cases hnz

/-- C5: `deleteSubtree(n)` removes exactly `n` and the ids reachable from
it via `children`; every other binding is untouched, and in particular the
former parent (when outside the subtree) keeps `n` listed among its
children. -/
theorem claim_C5_deleteSubtree_exact (st : ConvState) (n : Nat) :
    (∀ x, Reach st.nodes n x → lookupNode (deleteSubtree st n).nodes x = none) ∧
    (∀ x, ¬ Reach st.nodes n x →
      lookupNode (deleteSubtree st n).nodes x = lookupNode st.nodes x) ∧
    (∀ p np nn, lookupNode st.nodes n = some nn → nn.parentId = some p →
      lookupNode st.nodes p = some np → ¬ Reach st.nodes n p → n ∈ np.children →
      lookupNode (deleteSubtree st n).nodes p = some np ∧ n ∈ np.children) := by
  have hframe : ∀ x, ¬ Reach st.nodes n x →
      lookupNode (deleteSubtree st n).nodes x = lookupNode st.nodes x := by
    intro x hnr
    show lookupNode (delLoop st.nodes [n]) x = lookupNode st.nodes x
    cases hres : lookupNode (delLoop st.nodes [n]) x with
    | some v => exact (delLoop_subset st.nodes [n] x v hres).symm
    | none =>
      rcases delLoop_deleted_reachable st.nodes [n] x hres with h1 | ⟨s, hs, hre⟩
      · exact h1.symm
      · rw [List.mem_singleton] at hs
        subst hs
        exact absurd hre hnr
  refine ⟨?_, hframe, ?_⟩
  · intro x hx
    exact delLoop_reach_none st.nodes n x hx
  · intro p np nn hn hpar hp hnr hch
    refine ⟨?_, hch⟩
    rw [hframe p hnr]
    exact hp

theorem claim_C5_witness :
    lookupNode stB.nodes 2 = some nodeB2 ∧ 2 ∈ nodeB1.children ∧
    lookupNode (deleteSubtree stB 2).nodes 2 = none ∧
    lookupNode (deleteSubtree stB 2).nodes 1 = some nodeB1 := by
  have hnr : ¬ Reach stB.nodes 2 1 := by
    intro hre
    rcases hre.tail_shape with h1 | ⟨y, ny, hny, hch⟩
    · exact absurd h1 (by decide)
    · have hmem := mem_of_lookupNode hny
      have : (y, ny) = (1, nodeB1) ∨ (y, ny) = (2, nodeB2) ∨ (y, ny) = (3, nodeB3) := by
        simpa [stB] using hmem
      rcases this with h2 | h2 | h2 <;>
        (cases h2; revert hch; decide)
  refine ⟨by decide, by decide, ?_, ?_⟩
  · exact (claim_C5_deleteSubtree_exact stB 2).1 2 (Reach.refl 2 nodeB2 (by decide))
  · exact ((claim_C5_deleteSubtree_exact stB 2).2.2 1 nodeB1 nodeB2 (by decide) (by decide)
      (by decide) hnr (by decide)).1

/-- Behaviour of the ascent loop of `getNodePath` on a well-formed forest
whose ascent terminates within the given fuel: the loop appends the
ancestor chain of the start node, ending at a parentless root, with
parent links holding between consecutive entries. -/
theorem getNodePathAux_spec (nodes : NodeMap) (hkc : KeyConsistent nodes)
    (hpc : ParentClosed nodes) :
    ∀ fuel (cur : Option Nat) path, ascendsFuel nodes fuel cur = true →
      (∀ k, cur = some k → (lookupNode nodes k).isSome = true) →
      ∃ asc, getNodePathAux nodes fuel cur path = path ++ asc ∧
        (cur = none → asc = []) ∧
        (∀ k, cur = some k →
          (∃ nk, lookupNode nodes k = some nk ∧ asc.head? = some nk) ∧
          (∃ last, asc.getLast? = some last ∧ last.parentId = none) ∧
          List.Chain' (fun a b => a.parentId = some b.id) asc) := by
  intro fuel
  induction fuel with
  | zero =>
    intro cur path hasc hcur
    cases cur with
    | none =>
      refine ⟨[], by simp [getNodePathAux], fun _ => rfl, fun k hk => by cases hk⟩
    | some k => simp [ascendsFuel] at hasc
  | succ fuel ih =>
    intro cur path hasc hcur
    cases cur with
    | none =>
      refine ⟨[], by simp [getNodePathAux], fun _ => rfl, fun k hk => by cases hk⟩
    | some k =>
      obtain ⟨nk, hlk⟩ := Option.isSome_iff_exists.mp (hcur k rfl)
      have hmemk := mem_of_lookupNode hlk
      have hasc2 : ascendsFuel nodes fuel nk.parentId = true := by
        rw [ascendsFuel, hlk] at hasc
        exact hasc
      have hcur2 : ∀ k2, nk.parentId = some k2 → (lookupNode nodes k2).isSome = true :=
        fun k2 hk2 => hpc (k, nk) hmemk k2 hk2
      obtain ⟨asc2, heq2, hnone2, hsome2⟩ := ih nk.parentId (path ++ [nk]) hasc2 hcur2
      refine ⟨nk :: asc2, ?_, ?_, ?_⟩
      · rw [getNodePathAux, hlk]
        show getNodePathAux nodes fuel nk.parentId (path ++ [nk]) = path ++ (nk :: asc2)
        rw [heq2]
        simp
      · intro hc
        cases hc
      · intro k2 hk2
        cases hk2
        refine ⟨⟨nk, hlk, rfl⟩, ?_, ?_⟩
        · cases hpar : nk.parentId with
          | none =>
            have : asc2 = [] := hnone2 hpar
            subst this
            exact ⟨nk, rfl, hpar⟩
          | some k3 =>
            obtain ⟨hhead3, hlast3, hchain3⟩ := hsome2 k3 hpar
            obtain ⟨last3, hl3, hl3p⟩ := hlast3
            refine ⟨last3, ?_, hl3p⟩
            cases asc2 with
            | nil => cases hl3
            | cons b t =>
              rw [List.getLast?_cons_cons]
              exact hl3
        · cases hpar : nk.parentId with
          | none =>
            have : asc2 = [] := hnone2 hpar
            subst this
            simp
          | some k3 =>
            obtain ⟨hhead3, hlast3, hchain3⟩ := hsome2 k3 hpar
            obtain ⟨n3, hln3, hhd3⟩ := hhead3
            rw [List.chain'_cons']
            refine ⟨?_, hchain3⟩
            intro b hb
            rw [hhd3] at hb
            cases hb
            have hid : n3.id = k3 := hkc (k3, n3) (mem_of_lookupNode hln3)
            rw [hpar, hid]

/-- C4: on a well-formed forest (keys consistent, parent links resolving,
ascent terminating), `getNodePath` of an existing node returns the chain
from a parentless root down to the node itself, with parent-child
adjacency between consecutive elements. -/
theorem claim_C4_path_root_to_node (st : ConvState) (nodeId : Nat) (nd : Node)
    (hkc : KeyConsistent st.nodes) (hpc : ParentClosed st.nodes)
    (hl : lookupNode st.nodes nodeId = some nd)
    (hasc : ascendsFuel st.nodes (st.nodes.length + 1) (some nodeId) = true) :
    getNodePath st nodeId ≠ [] ∧
    (getNodePath st nodeId).getLast? = some nd ∧
    (∀ first, (getNodePath st nodeId).head? = some first → first.parentId = none) ∧
    List.Chain' (fun a b => b.parentId = some a.id) (getNodePath st nodeId) := by
  obtain ⟨asc, heq, -, hsome⟩ := getNodePathAux_spec st.nodes hkc hpc
    (st.nodes.length + 1) (some nodeId) [] hasc
    (by intro k hk; cases hk; rw [hl]; rfl)
  obtain ⟨⟨nk, hlk, hhd⟩, ⟨last, hlast, hlastp⟩, hchain⟩ := hsome nodeId rfl
  rw [hl] at hlk
  cases hlk
  have hpath : getNodePath st nodeId = asc.reverse := by
    unfold getNodePath
    rw [heq]
    simp
  refine ⟨?_, ?_, ?_, ?_⟩
  · rw [hpath]
    intro hnil
    have : asc = [] := by simpa using hnil
    rw [this] at hhd
    cases hhd
  · rw [hpath, List.getLast?_reverse]
    exact hhd
  · intro first hfirst
    rw [hpath, List.head?_reverse, hlast] at hfirst
    cases hfirst
    exact hlastp
  · rw [hpath, List.chain'_reverse]
    exact hchain

theorem claim_C4_witness :
    KeyConsistent stB.nodes ∧ ParentClosed stB.nodes ∧
    lookupNode stB.nodes 2 = some nodeB2 ∧
    ascendsFuel stB.nodes (stB.nodes.length + 1) (some 2) = true ∧
    getNodePath stB 2 ≠ [] ∧
    (getNodePath stB 2).getLast? = some nodeB2 :=
  ⟨by decide, by decide, by decide, by decide,
    (claim_C4_path_root_to_node stB 2 nodeB2 (by decide) (by decide) (by decide) (by decide)).1,
    (claim_C4_path_root_to_node stB 2 nodeB2 (by decide) (by decide) (by decide)
      (by decide)).2.1⟩

/-- Reachability survives extending the mapping with new keys and
appending to existing children lists. -/
theorem Reach.mono_children {N N' : NodeMap} {x y : Nat}
    (hsub : ∀ k n, lookupNode N k = some n →
      ∃ n', lookupNode N' k = some n' ∧ ∀ c ∈ n.children, c ∈ n'.children)
    (h : Reach N x y) : Reach N' x y := by
  induction h with
  | refl n hl =>
    obtain ⟨n', hn', -⟩ := hsub _ n hl
    exact Reach.refl _ n' hn'
  | step b c nb nc hab hnb hc hnc ih =>
    obtain ⟨nb', hnb', hchb⟩ := hsub _ nb hnb
    obtain ⟨nc', hnc', -⟩ := hsub _ nc hnc
    exact Reach.step _ b c nb' nc' ih hnb' (hchb c hc) hnc'

/-- A node reachable from the pruned-to root survives the prune. -/
theorem prune_keeps_reachable (st : ConvState) (ρ k : Nat)
    (h : Reach st.nodes ρ k) :
    (lookupNode (pruneToRoot st ρ).nodes k).isSome = true := by
  obtain ⟨nρ, hnρ⟩ := h.src_exists
  rw [lookupNode_pruneToRoot st ρ nρ hnρ k,
    if_pos ((bfsLoop_reach_iff st.nodes ρ nρ hnρ k).mpr h)]
  obtain ⟨nk, hnk⟩ := h.tgt_exists
  rw [hnk]
  rfl

/-- C8 counterexample: when the completion call errors (the promise
rejects), the handler answers with the 500 catch-all; the resulting state
holds only the user node — no assistant node carrying the fallback text is
created, contradicting the claim as stated. -/
theorem claim_C8_counterexample :
    postMessage ⟨[], []⟩ (some "hi") none 0 1 "t0" "t1" (Except.error "boom") =
      PostResult.serverError ⟨[(0, ⟨0, "user", "hi", none, [], "t0", some 0⟩)], [0]⟩ ∧
    ((postMessage ⟨[], []⟩ (some "hi") none 0 1 "t0" "t1"
        (Except.error "boom")).state.nodes.all (fun p => p.2.role != "assistant")) = true := by
  constructor
  · rfl
  · rfl

/-- A validated parentless request reaches the exchange core. -/
theorem postMessage_valid_none (st : ConvState) (c : String)
    (userId assistantId : Nat) (uTs aTs : String)
    (completion : Except String (Option String)) (hc : ¬c = "") :
    postMessage st (some c) none userId assistantId uTs aTs completion =
      postMessageCore st c none userId assistantId uTs aTs completion := by
  simp [postMessage, hc]

/-- A validated reply request (existing assistant parent) reaches the
exchange core. -/
theorem postMessage_valid_parent (st : ConvState) (c : String) (pid : Nat)
    (pn : Node) (userId assistantId : Nat) (uTs aTs : String)
    (completion : Except String (Option String)) (hc : ¬c = "")
    (hpn : lookupNode st.nodes pid = some pn) (hrole : pn.role = "assistant") :
    postMessage st (some c) (some pid) userId assistantId uTs aTs completion =
      postMessageCore st c (some pid) userId assistantId uTs aTs completion := by
  simp [postMessage, hc, hpn, hrole]

/-- The core on a thrown completion: catch-all 500 with the user node
already inserted. -/
theorem postMessageCore_error (st : ConvState) (c : String) (parentId : Option Nat)
    (userId assistantId : Nat) (uTs aTs : String) (e : String) :
    postMessageCore st c parentId userId assistantId uTs aTs (Except.error e) =
      PostResult.serverError (createNode st "user" c parentId userId uTs).1 := rfl

/-- The core on a returned completion: user node, assistant node with the
fallback-defaulted content, prune to the user's root, success response. -/
theorem postMessageCore_ok (st : ConvState) (c : String) (parentId : Option Nat)
    (userId assistantId : Nat) (uTs aTs : String) (ext : Option String) :
    postMessageCore st c parentId userId assistantId uTs aTs (Except.ok ext) =
      PostResult.ok (createNode st "user" c parentId userId uTs).2
        (createNode (createNode st "user" c parentId userId uTs).1 "assistant"
          (extractContent ext)
          (some (createNode st "user" c parentId userId uTs).2.id) assistantId aTs).2
        (pruneToRoot
          (createNode (createNode st "user" c parentId userId uTs).1 "assistant"
            (extractContent ext)
            (some (createNode st "user" c parentId userId uTs).2.id) assistantId aTs).1
          (getRootId
            (createNode (createNode st "user" c parentId userId uTs).1 "assistant"
              (extractContent ext)
              (some (createNode st "user" c parentId userId uTs).2.id) assistantId aTs).1
            (createNode st "user" c parentId userId uTs).2.id)) := rfl

theorem extractContent_of_unusable (ext : Option String)
    (hext : ext = none ∨ ext = some "") : extractContent ext = fallbackMessage := by
  rcases hext with h | h <;> subst h <;> simp [extractContent]

/-- C8 (amended): on a validated request, if the completion returns no
usable text the handler substitutes the fixed fallback text — the user
node persists and an assistant node parented to it and carrying the
fallback content is still created, with no retry; but if the completion
call errors, the handler instead answers with the 500 catch-all — the
freshly inserted user node is the only addition and no assistant node is
created. -/
theorem claim_C8_fallback_only_on_unusable_text (st : ConvState) (c : String)
    (parentId : Option Nat) (userId assistantId : Nat) (uTs aTs : String)
    (hc : ¬c = "")
    (hfreshU : FreshId st userId) (hfreshA : FreshId st assistantId)
    (hne : ¬assistantId = userId)
    (hval : ∀ pid, parentId = some pid → ∃ pn, lookupNode st.nodes pid = some pn ∧
      pn.role = "assistant" ∧ Reach st.nodes (pn.rootId.getD pn.id) pid) :
    (∀ e, postMessage st (some c) parentId userId assistantId uTs aTs (Except.error e) =
      PostResult.serverError (createNode st "user" c parentId userId uTs).1) ∧
    (lookupNode (createNode st "user" c parentId userId uTs).1.nodes userId).isSome = true ∧
    (∀ k, (lookupNode (createNode st "user" c parentId userId uTs).1.nodes k).isSome = true →
      k = userId ∨ (lookupNode st.nodes k).isSome = true) ∧
    (∀ ext, (ext = none ∨ ext = some "") →
      ∃ uN aN stf,
        postMessage st (some c) parentId userId assistantId uTs aTs (Except.ok ext) =
          PostResult.ok uN aN stf ∧
        uN.id = userId ∧ uN.role = "user" ∧ uN.content = c ∧
        aN.id = assistantId ∧ aN.role = "assistant" ∧ aN.content = fallbackMessage ∧
        aN.parentId = some userId ∧
        (lookupNode stf.nodes userId).isSome = true ∧
        (lookupNode stf.nodes assistantId).isSome = true) := by
  cases parentId with
  | none =>
    have heq1 := createNode_root_eq st "user" c userId uTs hfreshU.1
    have hst1 : (createNode st "user" c none userId uTs).1 =
        ⟨st.nodes ++ [(userId, ⟨userId, "user", c, none, [], uTs, some userId⟩)],
          st.rootIds ++ [userId]⟩ := by rw [heq1]
    have hu2 : (createNode st "user" c none userId uTs).2 =
        ⟨userId, "user", c, none, [], uTs, some userId⟩ := by rw [heq1]
    refine ⟨?_, ?_, ?_, ?_⟩
    · intro e
      rw [postMessage_valid_none st c userId assistantId uTs aTs _ hc,
        postMessageCore_error]
    · rw [hst1]
      rw [lookupNode_append_self _ _ _ hfreshU.1]
      rfl
    · rw [hst1]
      intro k hk
      by_cases hku : k = userId
      · exact Or.inl hku
      · rw [lookupNode_append_other _ _ _ _ hku] at hk
        exact Or.inr hk
    · intro ext hext
      have hfb := extractContent_of_unusable ext hext
      have hneu : ¬userId = assistantId := fun h => hne h.symm
      -- the inserted user node and the state after it
      have hlu1 : lookupNode (st.nodes ++
          [(userId, ⟨userId, "user", c, none, [], uTs, some userId⟩)]) userId =
          some ⟨userId, "user", c, none, [], uTs, some userId⟩ :=
        lookupNode_append_self _ _ _ hfreshU.1
      have hfa1 : lookupNode (st.nodes ++
          [(userId, ⟨userId, "user", c, none, [], uTs, some userId⟩)]) assistantId = none := by
        rw [lookupNode_append_other _ _ _ _ hne]
        exact hfreshA.1
      have heq2 := createNode_parent_eq
        ⟨st.nodes ++ [(userId, ⟨userId, "user", c, none, [], uTs, some userId⟩)],
          st.rootIds ++ [userId]⟩
        "assistant" fallbackMessage userId assistantId aTs
        ⟨userId, "user", c, none, [], uTs, some userId⟩ hfa1 hlu1
      have hst2 : (createNode
          ⟨st.nodes ++ [(userId, ⟨userId, "user", c, none, [], uTs, some userId⟩)],
            st.rootIds ++ [userId]⟩
          "assistant" fallbackMessage (some userId) assistantId aTs).1 =
          ⟨pushChild (st.nodes ++
              [(userId, ⟨userId, "user", c, none, [], uTs, some userId⟩)]) userId assistantId ++
            [(assistantId, ⟨assistantId, "assistant", fallbackMessage, some userId, [], aTs,
              some userId⟩)],
            st.rootIds ++ [userId]⟩ := by rw [heq2]; rfl
      have ha2 : (createNode
          ⟨st.nodes ++ [(userId, ⟨userId, "user", c, none, [], uTs, some userId⟩)],
            st.rootIds ++ [userId]⟩
          "assistant" fallbackMessage (some userId) assistantId aTs).2 =
          ⟨assistantId, "assistant", fallbackMessage, some userId, [], aTs, some userId⟩ := by
        rw [heq2]
        rfl
      -- lookups in the post-assistant state
      have hlu2 : lookupNode (pushChild (st.nodes ++
            [(userId, ⟨userId, "user", c, none, [], uTs, some userId⟩)]) userId assistantId ++
          [(assistantId, ⟨assistantId, "assistant", fallbackMessage, some userId, [], aTs,
            some userId⟩)]) userId =
          some ⟨userId, "user", c, none, [assistantId], uTs, some userId⟩ := by
        rw [lookupNode_append_other _ _ _ _ hneu, lookupNode_pushChild, if_pos rfl, hlu1]
        rfl
      have hla2 : lookupNode (pushChild (st.nodes ++
            [(userId, ⟨userId, "user", c, none, [], uTs, some userId⟩)]) userId assistantId ++
          [(assistantId, ⟨assistantId, "assistant", fallbackMessage, some userId, [], aTs,
            some userId⟩)]) assistantId =
          some ⟨assistantId, "assistant", fallbackMessage, some userId, [], aTs, some userId⟩ := by
        apply lookupNode_append_self
        rw [lookupNode_pushChild, if_neg hne]
        exact hfa1
      refine ⟨⟨userId, "user", c, none, [], uTs, some userId⟩,
        ⟨assistantId, "assistant", fallbackMessage, some userId, [], aTs, some userId⟩,
        pruneToRoot
          ⟨pushChild (st.nodes ++
              [(userId, ⟨userId, "user", c, none, [], uTs, some userId⟩)]) userId assistantId ++
            [(assistantId, ⟨assistantId, "assistant", fallbackMessage, some userId, [], aTs,
              some userId⟩)],
            st.rootIds ++ [userId]⟩
          userId,
        ?_, rfl, rfl, rfl, rfl, rfl, rfl, rfl, ?_, ?_⟩
      · rw [postMessage_valid_none st c userId assistantId uTs aTs _ hc, postMessageCore_ok,
          hfb, hu2, hst1]
        show PostResult.ok _ _ _ = _
        rw [ha2, hst2]
        have hroot : getRootId
            ⟨pushChild (st.nodes ++
                [(userId, ⟨userId, "user", c, none, [], uTs, some userId⟩)]) userId assistantId ++
              [(assistantId, ⟨assistantId, "assistant", fallbackMessage, some userId, [], aTs,
                some userId⟩)],
              st.rootIds ++ [userId]⟩ userId = userId := by
          unfold getRootId
          rw [hlu2]
          rfl
        rw [hroot]
      · exact prune_keeps_reachable _ userId userId (Reach.refl _ _ hlu2)
      · refine prune_keeps_reachable _ userId assistantId ?_
        exact Reach.step _ userId assistantId _ _ (Reach.refl _ _ hlu2) hlu2 (by simp) hla2
  | some pid =>
    obtain ⟨pn, hpn, hrole, hreach⟩ := hval pid rfl
    have hpidu : ¬pid = userId := by
      intro h
      rw [h, hfreshU.1] at hpn
      cases hpn
    have hpida : ¬pid = assistantId := by
      intro h
      rw [h, hfreshA.1] at hpn
      cases hpn
    have heq1 := createNode_parent_eq st "user" c pid userId uTs pn hfreshU.1 hpn
    have hst1 : (createNode st "user" c (some pid) userId uTs).1 =
        ⟨pushChild st.nodes pid userId ++
            [(userId, ⟨userId, "user", c, some pid, [], uTs, some (pn.rootId.getD pn.id)⟩)],
          st.rootIds⟩ := by rw [heq1]
    have hu2 : (createNode st "user" c (some pid) userId uTs).2 =
        ⟨userId, "user", c, some pid, [], uTs, some (pn.rootId.getD pn.id)⟩ := by rw [heq1]
    have hlu1 : lookupNode (pushChild st.nodes pid userId ++
        [(userId, ⟨userId, "user", c, some pid, [], uTs, some (pn.rootId.getD pn.id)⟩)])
        userId =
        some ⟨userId, "user", c, some pid, [], uTs, some (pn.rootId.getD pn.id)⟩ := by
      apply lookupNode_append_self
      rw [lookupNode_pushChild, if_neg (fun h => hpidu h.symm)]
      exact hfreshU.1
    have hfa1 : lookupNode (pushChild st.nodes pid userId ++
        [(userId, ⟨userId, "user", c, some pid, [], uTs, some (pn.rootId.getD pn.id)⟩)])
        assistantId = none := by
      rw [lookupNode_append_other _ _ _ _ hne, lookupNode_pushChild,
        if_neg (fun h => hpida h.symm)]
      exact hfreshA.1
    refine ⟨?_, ?_, ?_, ?_⟩
    · intro e
      rw [postMessage_valid_parent st c pid pn userId assistantId uTs aTs _ hc hpn hrole,
        postMessageCore_error]
    · rw [hst1]
      rw [hlu1]
      rfl
    · rw [hst1]
      intro k hk
      by_cases hku : k = userId
      · exact Or.inl hku
      · rw [lookupNode_append_other _ _ _ _ hku, lookupNode_pushChild] at hk
        by_cases hkp : k = pid
        · refine Or.inr ?_
          rw [hkp, hpn]
          rfl
        · rw [if_neg hkp] at hk
          exact Or.inr hk
    · intro ext hext
      have hfb := extractContent_of_unusable ext hext
      have hneu : ¬userId = assistantId := fun h => hne h.symm
      have heq2 := createNode_parent_eq
        ⟨pushChild st.nodes pid userId ++
            [(userId, ⟨userId, "user", c, some pid, [], uTs, some (pn.rootId.getD pn.id)⟩)],
          st.rootIds⟩
        "assistant" fallbackMessage userId assistantId aTs
        ⟨userId, "user", c, some pid, [], uTs, some (pn.rootId.getD pn.id)⟩ hfa1 hlu1
      have hst2 : (createNode
          ⟨pushChild st.nodes pid userId ++
              [(userId, ⟨userId, "user", c, some pid, [], uTs, some (pn.rootId.getD pn.id)⟩)],
            st.rootIds⟩
          "assistant" fallbackMessage (some userId) assistantId aTs).1 =
          ⟨pushChild (pushChild st.nodes pid userId ++
              [(userId, ⟨userId, "user", c, some pid, [], uTs,
                some (pn.rootId.getD pn.id)⟩)]) userId assistantId ++
            [(assistantId, ⟨assistantId, "assistant", fallbackMessage, some userId, [], aTs,
              some (pn.rootId.getD pn.id)⟩)],
            st.rootIds⟩ := by rw [heq2]; rfl
      have ha2 : (createNode
          ⟨pushChild st.nodes pid userId ++
              [(userId, ⟨userId, "user", c, some pid, [], uTs, some (pn.rootId.getD pn.id)⟩)],
            st.rootIds⟩
          "assistant" fallbackMessage (some userId) assistantId aTs).2 =
          ⟨assistantId, "assistant", fallbackMessage, some userId, [], aTs,
            some (pn.rootId.getD pn.id)⟩ := by rw [heq2]; rfl
      have hlu2 : lookupNode (pushChild (pushChild st.nodes pid userId ++
            [(userId, ⟨userId, "user", c, some pid, [], uTs,
              some (pn.rootId.getD pn.id)⟩)]) userId assistantId ++
          [(assistantId, ⟨assistantId, "assistant", fallbackMessage, some userId, [], aTs,
            some (pn.rootId.getD pn.id)⟩)]) userId =
          some ⟨userId, "user", c, some pid, [assistantId], uTs,
            some (pn.rootId.getD pn.id)⟩ := by
        rw [lookupNode_append_other _ _ _ _ hneu, lookupNode_pushChild, if_pos rfl, hlu1]
        rfl
      have hla2 : lookupNode (pushChild (pushChild st.nodes pid userId ++
            [(userId, ⟨userId, "user", c, some pid, [], uTs,
              some (pn.rootId.getD pn.id)⟩)]) userId assistantId ++
          [(assistantId, ⟨assistantId, "assistant", fallbackMessage, some userId, [], aTs,
            some (pn.rootId.getD pn.id)⟩)]) assistantId =
          some ⟨assistantId, "assistant", fallbackMessage, some userId, [], aTs,
            some (pn.rootId.getD pn.id)⟩ := by
        apply lookupNode_append_self
        rw [lookupNode_pushChild, if_neg hne]
        exact hfa1
      have hlpid2 : lookupNode (pushChild (pushChild st.nodes pid userId ++
            [(userId, ⟨userId, "user", c, some pid, [], uTs,
              some (pn.rootId.getD pn.id)⟩)]) userId assistantId ++
          [(assistantId, ⟨assistantId, "assistant", fallbackMessage, some userId, [], aTs,
            some (pn.rootId.getD pn.id)⟩)]) pid =
          some { pn with children := pn.children ++ [userId] } := by
        rw [lookupNode_append_other _ _ _ _ hpida, lookupNode_pushChild, if_neg hpidu,
          lookupNode_append_other _ _ _ _ hpidu, lookupNode_pushChild, if_pos rfl, hpn]
        rfl
      have hsub : ∀ k n, lookupNode st.nodes k = some n →
          ∃ n', lookupNode (pushChild (pushChild st.nodes pid userId ++
              [(userId, ⟨userId, "user", c, some pid, [], uTs,
                some (pn.rootId.getD pn.id)⟩)]) userId assistantId ++
            [(assistantId, ⟨assistantId, "assistant", fallbackMessage, some userId, [], aTs,
              some (pn.rootId.getD pn.id)⟩)]) k = some n' ∧
            ∀ ch ∈ n.children, ch ∈ n'.children := by
        intro k n hkn
        have hku : ¬k = userId := by
          intro h
          rw [h, hfreshU.1] at hkn
          cases hkn
        have hka : ¬k = assistantId := by
          intro h
          rw [h, hfreshA.1] at hkn
          cases hkn
        rw [lookupNode_append_other _ _ _ _ hka, lookupNode_pushChild, if_neg hku,
          lookupNode_append_other _ _ _ _ hku, lookupNode_pushChild]
        by_cases hkp : k = pid
        · rw [if_pos hkp]
          subst hkp
          rw [hpn] at hkn
          cases hkn
          rw [hpn]
          refine ⟨_, rfl, ?_⟩
          intro ch hch
          simp [hch]
        · rw [if_neg hkp, hkn]
          exact ⟨n, rfl, fun ch hch => hch⟩
      have hreach2 : Reach (pushChild (pushChild st.nodes pid userId ++
            [(userId, ⟨userId, "user", c, some pid, [], uTs,
              some (pn.rootId.getD pn.id)⟩)]) userId assistantId ++
          [(assistantId, ⟨assistantId, "assistant", fallbackMessage, some userId, [], aTs,
            some (pn.rootId.getD pn.id)⟩)]) (pn.rootId.getD pn.id) pid :=
        hreach.mono_children hsub
      have hreachU : Reach (pushChild (pushChild st.nodes pid userId ++
            [(userId, ⟨userId, "user", c, some pid, [], uTs,
              some (pn.rootId.getD pn.id)⟩)]) userId assistantId ++
          [(assistantId, ⟨assistantId, "assistant", fallbackMessage, some userId, [], aTs,
            some (pn.rootId.getD pn.id)⟩)]) (pn.rootId.getD pn.id) userId :=
        Reach.step _ pid userId _ _ hreach2 hlpid2 (by simp) hlu2
      have hreachA : Reach (pushChild (pushChild st.nodes pid userId ++
            [(userId, ⟨userId, "user", c, some pid, [], uTs,
              some (pn.rootId.getD pn.id)⟩)]) userId assistantId ++
          [(assistantId, ⟨assistantId, "assistant", fallbackMessage, some userId, [], aTs,
            some (pn.rootId.getD pn.id)⟩)]) (pn.rootId.getD pn.id) assistantId :=
        Reach.step _ userId assistantId _ _ hreachU hlu2 (by simp) hla2
      refine ⟨⟨userId, "user", c, some pid, [], uTs, some (pn.rootId.getD pn.id)⟩,
        ⟨assistantId, "assistant", fallbackMessage, some userId, [], aTs,
          some (pn.rootId.getD pn.id)⟩,
        pruneToRoot
          ⟨pushChild (pushChild st.nodes pid userId ++
              [(userId, ⟨userId, "user", c, some pid, [], uTs,
                some (pn.rootId.getD pn.id)⟩)]) userId assistantId ++
            [(assistantId, ⟨assistantId, "assistant", fallbackMessage, some userId, [], aTs,
              some (pn.rootId.getD pn.id)⟩)],
            st.rootIds⟩
          (pn.rootId.getD pn.id),
        ?_, rfl, rfl, rfl, rfl, rfl, rfl, rfl, ?_, ?_⟩
      · rw [postMessage_valid_parent st c pid pn userId assistantId uTs aTs _ hc hpn hrole,
          postMessageCore_ok, hfb, hu2, hst1]
        show PostResult.ok _ _ _ = _
        rw [ha2, hst2]
        have hroot : getRootId
            ⟨pushChild (pushChild st.nodes pid userId ++
                [(userId, ⟨userId, "user", c, some pid, [], uTs,
                  some (pn.rootId.getD pn.id)⟩)]) userId assistantId ++
              [(assistantId, ⟨assistantId, "assistant", fallbackMessage, some userId, [], aTs,
                some (pn.rootId.getD pn.id)⟩)],
              st.rootIds⟩ userId = pn.rootId.getD pn.id := by
          unfold getRootId
          rw [hlu2]
          rfl
        rw [hroot]
      · exact prune_keeps_reachable _ _ userId hreachU
      · exact prune_keeps_reachable _ _ assistantId hreachA

theorem claim_C8_witness :
    ¬"hi" = "" ∧ FreshId ⟨[], []⟩ 0 ∧ FreshId ⟨[], []⟩ 1 ∧ ¬(1 : Nat) = 0 ∧
    postMessage ⟨[], []⟩ (some "hi") none 0 1 "t0" "t1" (Except.error "boom") =
      PostResult.serverError (createNode ⟨[], []⟩ "user" "hi" none 0 "t0").1 ∧
    (lookupNode (createNode ⟨[], []⟩ "user" "hi" none 0 "t0").1.nodes 0).isSome = true :=
  ⟨by decide, by decide, by decide, by decide,
    (claim_C8_fallback_only_on_unusable_text ⟨[], []⟩ "hi" none 0 1 "t0" "t1" (by decide)
      (by decide) (by decide) (by decide) (fun pid h => by cases h)).1 "boom",
    (claim_C8_fallback_only_on_unusable_text ⟨[], []⟩ "hi" none 0 1 "t0" "t1" (by decide)
      (by decide) (by decide) (by decide) (fun pid h => by cases h)).2.1⟩
